import Mathlib

/-!
# Verification development for the password search program

A shallow embedding of

* `src/util/cartesian_range_power.h` (the lazy enumerator of a Cartesian power),
* `src/io/parse_file.cpp` (the three-field file loader),
* `src/cryptography/check_password.cpp` (the decrypt-and-check oracle),

followed by theorems about these definitions.

Conventions of the embedding.

* A range (the alphabet) is a view of an underlying sequence: a `List α` of its
  elements and a number that names the sequence (the storage) it is a view of.
  An iterator into a range is the storage it points into and its offset
  `0 .. range.length` from the begin of the range; `boost::begin` is offset `0`,
  `boost::end` is offset `range.length`.  Iterators of ranges that are compared by
  value (`boost::irange` and joins of it) count as pointing into one storage
  when the ranges have the same elements.
* A byte is a `Nat`; a buffer is a `List Nat`.
* `std::size_t` is 64 bits wide; size arithmetic is done modulo `2 ^ 64`.
* Code that throws returns `Except`.
-/

set_option autoImplicit false

/-! ## Part 1. `CartesianPowerIterator` (src/util/cartesian_range_power.h) -/

section Enumerator

variable {α : Type}

/-- Dereferencing the range iterator at position `i` (`*it`).  The source only
dereferences positions inside the range; outside of it the behaviour of the
source is undefined and the embedding returns `default`. -/
def deref [Inhabited α] (range : List α) (i : Nat) : α :=
  range.getD i default

/-- An iterator into a range (`boost::range_iterator<Range>::type`): the storage
it points into and its offset from the begin of the range. -/
structure RangeIterator where
  storage : Nat
  offset : Nat
deriving DecidableEq, Repr

/-- The class `CartesianPowerIterator<Range>`: the vector of iterators into the
range, the vector of the values they point to, the range and the end flag.  The
range is a view: `range` lists its elements and `storage` names the sequence it
is a view of; the iterators of the vector `iterators` point into that storage
and are given by their offsets. -/
structure CartesianPowerIterator (α : Type) where
  iterators : List Nat
  values : List α
  range : List α
  endReached : Bool
  storage : Nat
deriving DecidableEq, Repr

/-- The range iterators that the vector `iterators` holds. -/
def CartesianPowerIterator.storedIterators (self : CartesianPowerIterator α) :
    List RangeIterator :=
  self.iterators.map (fun offset => { storage := self.storage, offset := offset })

/-- The member `dereference`: the current tuple. -/
def CartesianPowerIterator.dereference (self : CartesianPowerIterator α) : List α :=
  self.values

/-- The member `equal`: the ranges are compared element by element (as
`operator!=` of a Boost range does), then the powers, and then `std::equal`
compares the stored range iterators one by one. -/
def CartesianPowerIterator.equal [DecidableEq α]
    (self anotherIterator : CartesianPowerIterator α) : Bool :=
  if self.range ≠ anotherIterator.range then
    false
  else if self.iterators.length ≠ anotherIterator.iterators.length then
    false
  else
    decide (self.storedIterators = anotherIterator.storedIterators)

/-- The `for` loop of `increment`, run over the reversed vectors (the source
walks `rbegin .. rend`).  The arguments are the iterators and the values still
to be visited, last position first.  The result is the two vectors after the
loop (again last position first) and whether the loop ran to `rend` without
executing `break`. -/
def incrementLoop [Inhabited α] (range : List α) :
    List Nat → List α → List Nat × List α × Bool
  | [], values => ([], values, true)
  | it :: iterators, values =>
    if it + 1 = range.length then
      let rest := incrementLoop range iterators values.tail
      (0 :: rest.1, deref range 0 :: rest.2.1, rest.2.2)
    else
      ((it + 1) :: iterators, deref range (it + 1) :: values.tail, false)

/-- The member `increment`. -/
def CartesianPowerIterator.increment [Inhabited α]
    (self : CartesianPowerIterator α) : CartesianPowerIterator α :=
  if self.endReached then
    self
  else
    let after := incrementLoop self.range self.iterators.reverse self.values.reverse
    if after.2.2 then
      { iterators := List.replicate self.iterators.length self.range.length
        values := []
        range := self.range
        endReached := true
        storage := self.storage }
    else
      { iterators := after.1.reverse
        values := after.2.1.reverse
        range := self.range
        endReached := false
        storage := self.storage }

/-- The constructor `CartesianPowerIterator(range, power)`.  The fill value
`*boost::begin(range)` is only used when the range is not empty. -/
def CartesianPowerIterator.ofPower (storage : Nat) (range : List α) (power : Nat) :
    CartesianPowerIterator α :=
  match range with
  | [] =>
    { iterators := List.replicate power 0
      values := []
      range := []
      endReached := true
      storage := storage }
  | first :: rest =>
    { iterators := List.replicate power 0
      values := List.replicate power first
      range := first :: rest
      endReached := false
      storage := storage }

/-- The exception `std::logic_error` of the constructor from a vector of
iterators. -/
inductive LogicError where
  | partOfIteratorsAtEnd
deriving DecidableEq, Repr

/-- The constructor `CartesianPowerIterator(range, iterators)`, for a vector of
iterators into `range`, given by their offsets. -/
def CartesianPowerIterator.ofIterators [Inhabited α] (storage : Nat) (range : List α)
    (iterators : List Nat) : Except LogicError (CartesianPowerIterator α) :=
  if range.isEmpty || iterators.isEmpty then
    .ok { iterators := List.replicate iterators.length range.length
          values := []
          range := range
          endReached := true
          storage := storage }
  else if iterators.all (fun it => it == range.length) then
    .ok { iterators := iterators
          values := []
          range := range
          endReached := true
          storage := storage }
  else if iterators.any (fun it => it == range.length) then
    .error .partOfIteratorsAtEnd
  else
    .ok { iterators := iterators
          values := iterators.map (deref range)
          range := range
          endReached := false
          storage := storage }

/-- The function `CartesianPowerRange`: the pair of the begin and the end
iterator of the Cartesian power of the range `range`, a view of `storage`. -/
def CartesianPowerRange [Inhabited α] (storage : Nat) (range : List α) (power : Nat) :
    Except LogicError (CartesianPowerIterator α × CartesianPowerIterator α) :=
  let endIterators := List.replicate power range.length
  match CartesianPowerIterator.ofIterators storage range endIterators with
  | .ok endIterator => .ok (CartesianPowerIterator.ofPower storage range power, endIterator)
  | .error e => .error e

/-- A walk over an iterator range, as a range-based `for` loop does it: while
the current iterator differs from the end iterator, read the tuple and
increment.  The result is the list of the tuples read, or `none` when the fuel
runs out before the end iterator is met. -/
def walk [DecidableEq α] [Inhabited α] :
    Nat → CartesianPowerIterator α → CartesianPowerIterator α → Option (List (List α))
  | 0, _, _ => none
  | fuel + 1, current, last =>
    if current.equal last then
      some []
    else
      (walk fuel current.increment last).map (fun tuples => current.dereference :: tuples)

end Enumerator

/-! ## Part 2. `parseFile` (src/io/parse_file.cpp) -/

/-- The number of values of `std::size_t` (64 bits). -/
def sizeModulus : Nat := 2 ^ 64

/-- Addition of two `std::size_t` values. -/
def sizeAdd (a b : Nat) : Nat := (a + b) % sizeModulus

/-- Subtraction of two `std::size_t` values. -/
def sizeSub (a b : Nat) : Nat := (a + (sizeModulus - b % sizeModulus)) % sizeModulus

/-- The struct `ParsedFile`: three buffers and their sizes. -/
structure ParsedFile where
  initialValue : List Nat
  content : List Nat
  shaCheckSum : List Nat
  initialValueSize : Nat
  contentSize : Nat
  shaCheckSumSize : Nat
deriving DecidableEq, Repr

/-- The exceptions of `parseFile`: the `std::runtime_error` thrown by the size
check, and the failure a stream with `failbit | badbit` exceptions throws when a
`read` does not get all the bytes it asks for. -/
inductive ParseError where
  | formatError
  | readFailure
deriving DecidableEq, Repr

/-- The call `fileToParse.read(buffer, count)` on a stream whose unread bytes are
`stream`: the bytes read and the bytes left, or a failure when fewer than
`count` bytes are left. -/
def readBytes (stream : List Nat) (count : Nat) : Except ParseError (List Nat × List Nat) :=
  if count ≤ stream.length then
    .ok (stream.take count, stream.drop count)
  else
    .error .readFailure

/-- The function `parseFile`, applied to an existing file given by its bytes.
The size check and the content size use `std::size_t` arithmetic.  The
allocation of the three buffers is not modelled: a read of more bytes than the
file has left fails in `read`. -/
def parseFile (file : List Nat) (initialValueSize shaCheckSumSize : Nat) :
    Except ParseError ParsedFile :=
  let fileSize := file.length
  if fileSize ≤ sizeAdd initialValueSize shaCheckSumSize then
    .error .formatError
  else
    match readBytes file initialValueSize with
    | .error e => .error e
    | .ok (initialValue, afterInitialValue) =>
      let contentSize := sizeSub (sizeSub fileSize initialValueSize) shaCheckSumSize
      match readBytes afterInitialValue contentSize with
      | .error e => .error e
      | .ok (content, afterContent) =>
        match readBytes afterContent shaCheckSumSize with
        | .error e => .error e
        | .ok (shaCheckSum, _) =>
          .ok { initialValue := initialValue
                content := content
                shaCheckSum := shaCheckSum
                initialValueSize := initialValueSize
                contentSize := contentSize
                shaCheckSumSize := shaCheckSumSize }

/-! ## Part 3. `CheckPassword` (src/cryptography/check_password.cpp) -/

/-- The state of a libgcrypt cipher handle (`gcry_cipher_hd_t`) that the calls
of `CheckPassword` can observe: the key set by `gcry_cipher_setkey` and the CBC
chaining value, set by `gcry_cipher_setiv` and moved on by every decryption. -/
structure CipherHandle where
  key : List Nat
  iv : List Nat
deriving DecidableEq, Repr

/-- The cipher engine (libgcrypt), which is not part of the repository: the two
digests, the error codes its calls return (`0` is success) and what a CBC
decryption computes from the handle and the ciphertext. -/
structure CipherEngine where
  md5 : List Nat → List Nat
  sha256 : List Nat → List Nat
  openError : Nat
  setkeyError : List Nat → Nat
  setivError : List Nat → Nat
  decryptError : CipherHandle → List Nat → Nat
  decrypt : CipherHandle → List Nat → List Nat
  chainAfter : CipherHandle → List Nat → List Nat

/-- Modelled from the spec: `gcry_md_get_algo_dlen(GCRY_MD_MD5)`, the length of
the key-derivation digest, 16 bytes. -/
def md5CheckSumSize : Nat := 16

/-- Modelled from the spec: `gcry_cipher_get_algo_keylen(GCRY_CIPHER_3DES)`, the
length of the key of the triple-length block cipher, 24 bytes. -/
def tripleDESKeySize : Nat := 24

/-- The class `GcryException`, identified by the error code it was built from. -/
structure GcryException where
  code : Nat
deriving DecidableEq, Repr

/-- The function `processGcryError`: throws when the error code is not zero. -/
def processGcryError (gcryError : Nat) : Except GcryException Unit :=
  if gcryError ≠ 0 then .error ⟨gcryError⟩ else .ok ()

/-- The class `CheckPassword`: the cipher handle, the sizes and buffers shared
with the parsed file, and the four scratch buffers.  The constant members
`md5CheckSumSize` and `tripleDESKeySize` are the constants of the same name. -/
structure CheckPassword where
  cipher : CipherHandle
  cipherTextSize : Nat
  sha256CheckSumSize : Nat
  initialValueSize : Nat
  cipherText : List Nat
  sha256CheckSum : List Nat
  initialValue : List Nat
  originalText : List Nat
  md5HashResult : List Nat
  tripleDesKey : List Nat
  sha256HashResult : List Nat
deriving DecidableEq, Repr

/-- The contents of the four scratch buffers right after `new unsigned char[n]`,
which the source leaves uninitialised. -/
structure ScratchBuffers where
  originalText : List Nat
  md5HashResult : List Nat
  tripleDesKey : List Nat
  sha256HashResult : List Nat
deriving DecidableEq, Repr

/-- The constructor `CheckPassword(const ParsedFile &)`.  The handle that
`gcry_cipher_open` returns has no key and no chaining value yet. -/
def CheckPassword.construct (engine : CipherEngine) (cypherFile : ParsedFile)
    (fresh : ScratchBuffers) : Except GcryException CheckPassword :=
  match processGcryError engine.openError with
  | .error e => .error e
  | .ok _ =>
    .ok { cipher := { key := [], iv := [] }
          cipherTextSize := cypherFile.contentSize
          sha256CheckSumSize := cypherFile.shaCheckSumSize
          initialValueSize := cypherFile.initialValueSize
          cipherText := cypherFile.content
          sha256CheckSum := cypherFile.shaCheckSum
          initialValue := cypherFile.initialValue
          originalText := fresh.originalText
          md5HashResult := fresh.md5HashResult
          tripleDesKey := fresh.tripleDesKey
          sha256HashResult := fresh.sha256HashResult }

/-- The copy constructor `CheckPassword(const CheckPassword &)`: it shares the
buffers of the parsed file and opens a handle and scratch buffers of its own. -/
def CheckPassword.copyConstruct (engine : CipherEngine) (otherCipher : CheckPassword)
    (fresh : ScratchBuffers) : Except GcryException CheckPassword :=
  match processGcryError engine.openError with
  | .error e => .error e
  | .ok _ =>
    .ok { cipher := { key := [], iv := [] }
          cipherTextSize := otherCipher.cipherTextSize
          sha256CheckSumSize := otherCipher.sha256CheckSumSize
          initialValueSize := otherCipher.initialValueSize
          cipherText := otherCipher.cipherText
          sha256CheckSum := otherCipher.sha256CheckSum
          initialValue := otherCipher.initialValue
          originalText := fresh.originalText
          md5HashResult := fresh.md5HashResult
          tripleDesKey := fresh.tripleDesKey
          sha256HashResult := fresh.sha256HashResult }

/-- A library call that fills an output buffer: `data` is written to the start
of `buffer`, and the bytes of the buffer behind the data stay as they were.
(Data longer than the buffer overruns it in the source; here the buffer
grows.) -/
def writeBuffer (buffer data : List Nat) : List Nat :=
  data ++ buffer.drop data.length

/-- The member `isPasswordAcceptable`.  The result is what the call returns or
throws, together with the object after the call.  A call of the engine that
reports an error leaves the handle and the output buffer as they were.  The
MD5 buffer, the key buffer and the plaintext buffer have the sizes of what is
written to them and are replaced as a whole.  The SHA-256 buffer has
`sha256CheckSumSize` bytes, of which the call writes the bytes of the digest
only; all `sha256CheckSumSize` bytes of it are then compared with the
checksum. -/
def CheckPassword.isPasswordAcceptable (engine : CipherEngine) (self : CheckPassword)
    (password : List Nat) : Except GcryException Bool × CheckPassword :=
  let hashed := { self with md5HashResult := engine.md5 password }
  let keyed := { hashed with
    tripleDesKey := hashed.md5HashResult.take md5CheckSumSize ++
      hashed.md5HashResult.take (tripleDESKeySize - md5CheckSumSize) }
  let key := keyed.tripleDesKey.take tripleDESKeySize
  match processGcryError (engine.setkeyError key) with
  | .error e => (.error e, keyed)
  | .ok _ =>
    let withKey := { keyed with cipher := { keyed.cipher with key := key } }
    let iv := withKey.initialValue.take withKey.initialValueSize
    match processGcryError (engine.setivError iv) with
    | .error e => (.error e, withKey)
    | .ok _ =>
      let withIv := { withKey with cipher := { withKey.cipher with iv := iv } }
      let input := withIv.cipherText.take withIv.cipherTextSize
      match processGcryError (engine.decryptError withIv.cipher input) with
      | .error e => (.error e, withIv)
      | .ok _ =>
        let decrypted := { withIv with
          originalText := engine.decrypt withIv.cipher input
          cipher := { withIv.cipher with iv := engine.chainAfter withIv.cipher input } }
        let digested := { decrypted with
          sha256HashResult := writeBuffer decrypted.sha256HashResult
            (engine.sha256 (decrypted.originalText.take decrypted.cipherTextSize)) }
        (.ok (decide (digested.sha256HashResult.take digested.sha256CheckSumSize =
                digested.sha256CheckSum.take digested.sha256CheckSumSize)), digested)

/-- The member `getDecryptedText`. -/
def CheckPassword.getDecryptedText (self : CheckPassword) : List Nat :=
  self.originalText.take self.cipherTextSize

/-- The object after a sequence of `isPasswordAcceptable` calls, whatever they
return or throw. -/
def CheckPassword.afterCalls (engine : CipherEngine) (self : CheckPassword) :
    List (List Nat) → CheckPassword
  | [] => self
  | password :: later =>
    CheckPassword.afterCalls engine (self.isPasswordAcceptable engine password).2 later

/-- An engine to instantiate statements with: digests pad or cut their input to
the digest length, a key with first byte zero is refused as weak, a ciphertext
whose length is not a multiple of the block size of eight bytes is refused, and
decryption shifts every byte by the key and the chaining value; the chaining
value after a decryption is the last ciphertext block. -/
def sampleEngine : CipherEngine where
  md5 := fun data => (data ++ List.replicate 16 0).take 16
  sha256 := fun data => (data ++ List.replicate 32 0).take 32
  openError := 0
  setkeyError := fun key => if key.head? = some 0 then 1 else 0
  setivError := fun _ => 0
  decryptError := fun _ input => if input.length % 8 = 0 then 0 else 2
  decrypt := fun handle input => input.map (fun b => (b + handle.key.sum + handle.iv.sum) % 256)
  chainAfter := fun _ input => input.drop (input.length - 8)

/-- A parsed file to instantiate statements with: eight bytes of initial value,
eight bytes of content and a checksum of 32 bytes, the `sampleEngine` digest of
the `sampleEngine` decryption of the content under the password `[97]`. -/
def sampleFile : ParsedFile where
  initialValue := [1, 2, 3, 4, 5, 6, 7, 8]
  content := [10, 20, 30, 40, 50, 60, 70, 80]
  shaCheckSum := [240, 250, 4, 14, 24, 34, 44, 54] ++ List.replicate 24 0
  initialValueSize := 8
  contentSize := 8
  shaCheckSumSize := 32

/-- Scratch buffers of the sizes that `sampleFile` asks for, filled with zero. -/
def sampleScratch : ScratchBuffers where
  originalText := List.replicate 8 0
  md5HashResult := List.replicate 16 0
  tripleDesKey := List.replicate 24 0
  sha256HashResult := List.replicate 32 0

/-! ## Part 3a. The search of `main` (src/main.cpp, src/util/variadic_iter_join.h) -/

/-- The function `nextChar`, on character codes.  The program applies it to
`'z'`, `'Z'` and `'9'`, for which the `char` addition does not overflow. -/
def nextChar (letter : Nat) : Nat := letter + 1

/-- The range `boost::irange(first, last)`: the integers from `first` up to, but
not including, `last`. -/
def irange (first last : Nat) : List Nat := List.range' first (last - first)

/-- The variadic `join`: a single range is itself, and a first range is joined
with the join of the other ranges. -/
def join {α : Type} (firstRange : List α) : List (List α) → List α
  | [] => firstRange
  | nextRange :: otherRanges => firstRange ++ join nextRange otherRanges

/-- The range `allowedCharsForPasswordRange` of `main`, as character codes. -/
def allowedCharsForPasswordRange : List Nat :=
  join (irange 'a'.toNat (nextChar 'z'.toNat))
    [irange 'A'.toNat (nextChar 'Z'.toNat), irange '0'.toNat (nextChar '9'.toNat)]

/-- The constant `passwordLength` of `main`. -/
def passwordLength : Nat := 3

/-- What one critical section of `main` writes to `std::cout`: the password and,
when `printDecryptedText` is set, the decrypted text. -/
structure Report where
  password : List Nat
  decryptedText : Option (List Nat)
deriving DecidableEq, Repr

/-- The state of the search: the vector `ciphersForMultithread`, the reports
written to `std::cout`, the passwords of the warnings written to `std::cerr`,
and, as a record for the proofs, the passwords handed to
`isPasswordAcceptable` so far. -/
structure SearchState where
  ciphersForMultithread : List CheckPassword
  output : List Report
  warnings : List (List Nat)
  evaluated : List (List Nat)
deriving DecidableEq, Repr

/-- The loop of `main` that fills `ciphersForMultithread` with one oracle for
each of the `omp_get_max_threads()` threads; `fresh n` is what the scratch
buffers of oracle `n` hold when allocated. -/
def makeCiphers (engine : CipherEngine) (parsedFile : ParsedFile)
    (fresh : Nat → ScratchBuffers) : Nat → Except GcryException (List CheckPassword)
  | 0 => .ok []
  | threadIndex + 1 =>
    match makeCiphers engine parsedFile fresh threadIndex with
    | .error e => .error e
    | .ok ciphers =>
      match CheckPassword.construct engine parsedFile (fresh threadIndex) with
      | .error e => .error e
      | .ok cipher => .ok (ciphers ++ [cipher])

/-- The body of one task of `main`, run by the thread with the number
`threadNum`: the password is checked with the oracle of that thread, an
exception of the oracle is caught, reported as a warning and counted as a
rejection, and an accepted password is reported.  `omp_get_thread_num()` is
below the number of oracles; for another number the embedding does nothing. -/
def searchTask (engine : CipherEngine) (printDecryptedText : Bool) (state : SearchState)
    (threadNum : Nat) (passwordInVector : List Nat) : SearchState :=
  match state.ciphersForMultithread[threadNum]? with
  | none => state
  | some checkPassword =>
    let password := passwordInVector
    let called := checkPassword.isPasswordAcceptable engine password
    let ciphers := state.ciphersForMultithread.set threadNum called.2
    let evaluated := state.evaluated ++ [password]
    match called.1 with
    | .error _ =>
      { ciphersForMultithread := ciphers
        output := state.output
        warnings := state.warnings ++ [password]
        evaluated := evaluated }
    | .ok isPasswordAcceptable =>
      if isPasswordAcceptable then
        { ciphersForMultithread := ciphers
          output := state.output ++
            [{ password := password
               decryptedText :=
                 if printDecryptedText then some called.2.getDecryptedText else none }]
          warnings := state.warnings
          evaluated := evaluated }
      else
        { ciphersForMultithread := ciphers
          output := state.output
          warnings := state.warnings
          evaluated := evaluated }

/-- The `for` loop of `main` over the Cartesian power.  Every pass creates one
task; the tasks are run here one after the other in the order of their
creation, and `thread taskIndex` is the number of the thread that the OpenMP
runtime picks for the task.  No pass leaves the loop early. -/
def searchLoop (engine : CipherEngine) (printDecryptedText : Bool) (thread : Nat → Nat) :
    Nat → CartesianPowerIterator Nat → CartesianPowerIterator Nat → Nat → SearchState →
      Option SearchState
  | 0, _, _, _, _ => none
  | fuel + 1, current, last, taskIndex, state =>
    if current.equal last then
      some state
    else
      searchLoop engine printDecryptedText thread fuel current.increment last (taskIndex + 1)
        (searchTask engine printDecryptedText state (thread taskIndex) current.dereference)

/-- How the search of `main` ends: `std::exit(EXIT_FAILURE)` when an oracle
cannot be built, an exception of `CartesianPowerRange`, no more fuel, or the
state after the last task. -/
inductive SearchOutcome where
  | initializationFailed (e : GcryException)
  | rangeFailed (e : LogicError)
  | outOfFuel
  | finished (state : SearchState)
deriving DecidableEq, Repr

/-- The parallel section of `main`: the oracles are built, then every tuple of
`CartesianPowerRange(allowedCharsForPasswordRange, passwordLength)` is handed to
a task.  The alphabet of `main` is the one range of the program; its storage
has the number `0`. -/
def search (engine : CipherEngine) (parsedFile : ParsedFile) (printDecryptedText : Bool)
    (maxThreads : Nat) (fresh : Nat → ScratchBuffers) (thread : Nat → Nat) (fuel : Nat) :
    SearchOutcome :=
  match makeCiphers engine parsedFile fresh maxThreads with
  | .error e => .initializationFailed e
  | .ok ciphers =>
    match CartesianPowerRange 0 allowedCharsForPasswordRange passwordLength with
    | .error e => .rangeFailed e
    | .ok (first, last) =>
      match searchLoop engine printDecryptedText thread fuel first last 0
          { ciphersForMultithread := ciphers, output := [], warnings := [], evaluated := [] } with
      | none => .outOfFuel
      | some state => .finished state

/-! ## Part 4. Notions used to state and prove the properties -/

/-- The `k` least significant digits of `n` in base `a`, least significant
digit first. -/
def odometer (a : Nat) : Nat → Nat → List Nat
  | 0, _ => []
  | k + 1, n => (n % a) :: odometer a k (n / a)

/-- The enumerator state that stands for the number `n`: the positions are the
`k` digits of `n` in base `range.length`, most significant digit first, and the
values are the symbols at these positions. -/
def stateOf {α : Type} [Inhabited α] (storage : Nat) (range : List α) (k n : Nat) :
    CartesianPowerIterator α where
  iterators := (odometer range.length k n).reverse
  values := ((odometer range.length k n).map (deref range)).reverse
  range := range
  endReached := false
  storage := storage

/-- The end sentinel of power `k` over `range`: every position past the end, no
values, end flag set. -/
def endState {α : Type} (storage : Nat) (range : List α) (k : Nat) :
    CartesianPowerIterator α where
  iterators := List.replicate k range.length
  values := []
  range := range
  endReached := true
  storage := storage

/-- The oracle that the constructor builds from `sampleFile` and `sampleScratch`
with the engine `sampleEngine`. -/
def sampleOracle : CheckPassword where
  cipher := { key := [], iv := [] }
  cipherTextSize := 8
  sha256CheckSumSize := 32
  initialValueSize := 8
  cipherText := [10, 20, 30, 40, 50, 60, 70, 80]
  sha256CheckSum := [240, 250, 4, 14, 24, 34, 44, 54] ++ List.replicate 24 0
  initialValue := [1, 2, 3, 4, 5, 6, 7, 8]
  originalText := List.replicate 8 0
  md5HashResult := List.replicate 16 0
  tripleDesKey := List.replicate 24 0
  sha256HashResult := List.replicate 32 0

/-- A parsed file whose checksum field has 40 bytes, eight more than a digest of
`sampleEngine`: the first 32 bytes are the digest of the decryption of the
content for the password `[97]`, the last eight are zero. -/
def longChecksumFile : ParsedFile where
  initialValue := [1, 2, 3, 4, 5, 6, 7, 8]
  content := [10, 20, 30, 40, 50, 60, 70, 80]
  shaCheckSum := [240, 250, 4, 14, 24, 34, 44, 54] ++ List.replicate 32 0
  initialValueSize := 8
  contentSize := 8
  shaCheckSumSize := 40

/-- Scratch buffers of the sizes that `longChecksumFile` asks for, every byte of
which is `fill` when the buffers are allocated. -/
def filledScratch (fill : Nat) : ScratchBuffers where
  originalText := List.replicate 8 fill
  md5HashResult := List.replicate 16 fill
  tripleDesKey := List.replicate 24 fill
  sha256HashResult := List.replicate 40 fill

/-- The oracle that the constructor builds from `longChecksumFile` and
`filledScratch fill` with the engine `sampleEngine`. -/
def longChecksumOracle (fill : Nat) : CheckPassword where
  cipher := { key := [], iv := [] }
  cipherTextSize := 8
  sha256CheckSumSize := 40
  initialValueSize := 8
  cipherText := [10, 20, 30, 40, 50, 60, 70, 80]
  sha256CheckSum := [240, 250, 4, 14, 24, 34, 44, 54] ++ List.replicate 32 0
  initialValue := [1, 2, 3, 4, 5, 6, 7, 8]
  originalText := List.replicate 8 fill
  md5HashResult := List.replicate 16 fill
  tripleDesKey := List.replicate 24 fill
  sha256HashResult := List.replicate 40 fill

/-- An encryption that the decryption of `sampleEngine` inverts: every byte is
shifted back by the key and the initial value. -/
def sampleEncrypt (key iv plaintext : List Nat) : List Nat :=
  plaintext.map (fun b => (b + (256 - (key.sum + iv.sum) % 256)) % 256)

/-- The key expanded from a digest, in the words of the spec: bytes `[0..16)` are
the digest itself, bytes `[16..24)` are the first eight bytes of the digest. -/
def expandKey (digest : List Nat) : List Nat :=
  digest.take 16 ++ digest.take 8

/-- The cipher handle after the key expanded from the MD5 digest of `password`
and the initial value of the context have been set. -/
def handleFor (engine : CipherEngine) (self : CheckPassword) (password : List Nat) :
    CipherHandle where
  key := (expandKey (engine.md5 password)).take tripleDESKeySize
  iv := self.initialValue.take self.initialValueSize

/-- The decryption of the content of the context under the key expanded from
the MD5 digest of `password` and the initial value of the context. -/
def decryptionFor (engine : CipherEngine) (self : CheckPassword) (password : List Nat) :
    List Nat :=
  engine.decrypt (handleFor engine self password) (self.cipherText.take self.cipherTextSize)

/-- No call of the cipher engine that `isPasswordAcceptable` makes for
`password` reports an error. -/
@[reducible]
def engineAccepts (engine : CipherEngine) (self : CheckPassword) (password : List Nat) : Prop :=
  engine.setkeyError (handleFor engine self password).key = 0 ∧
  engine.setivError (handleFor engine self password).iv = 0 ∧
  engine.decryptError (handleFor engine self password)
    (self.cipherText.take self.cipherTextSize) = 0

/-- Two oracles work on the same ciphertext context: the same three buffers of
the parsed file with the same three sizes. -/
def sameContext (s t : CheckPassword) : Prop :=
  s.cipherTextSize = t.cipherTextSize ∧ s.sha256CheckSumSize = t.sha256CheckSumSize ∧
  s.initialValueSize = t.initialValueSize ∧ s.cipherText = t.cipherText ∧
  s.sha256CheckSum = t.sha256CheckSum ∧ s.initialValue = t.initialValue

/-- The number whose digits in base `a`, least significant digit first, are
`digits`. -/
def ofDigits (a : Nat) : List Nat → Nat
  | [] => 0
  | d :: digits => d + a * ofDigits a digits

/-- The tasks of `main` for the passwords `passwords`, run one after the other,
the first one with the task number `taskIndex`. -/
def runTasks (engine : CipherEngine) (printDecryptedText : Bool) (thread : Nat → Nat) :
    Nat → SearchState → List (List Nat) → SearchState
  | _, state, [] => state
  | taskIndex, state, password :: passwords =>
    runTasks engine printDecryptedText thread (taskIndex + 1)
      (searchTask engine printDecryptedText state (thread taskIndex) password) passwords

/-- The oracle `self` accepts `password`: the call returns `true`. -/
def acceptedBy (engine : CipherEngine) (self : CheckPassword) (password : List Nat) : Bool :=
  match (self.isPasswordAcceptable engine password).1 with
  | .ok accepted => accepted
  | .error _ => false

/-- The call of the oracle `self` for `password` throws. -/
def faultedBy (engine : CipherEngine) (self : CheckPassword) (password : List Nat) : Bool :=
  match (self.isPasswordAcceptable engine password).1 with
  | .ok _ => false
  | .error _ => true

/-- Every oracle of the search state works on the context of `base`, and there
are `maxThreads` of them. -/
def poolFor (base : CheckPassword) (maxThreads : Nat) (state : SearchState) : Prop :=
  state.ciphersForMultithread.length = maxThreads ∧
    ∀ c ∈ state.ciphersForMultithread, sameContext c base

/-! ## Part 5. Lemmas on the enumerator -/

section EnumeratorLemmas

variable {α : Type} {storage : Nat}

theorem succ_mod_of_wrap (a n : Nat) (h : n % a + 1 = a) :
    (n + 1) % a = 0 ∧ (n + 1) / a = n / a + 1 := by
  have ha : 0 < a := by omega
  have hn : n + 1 = a * (n / a + 1) := by
    have := Nat.div_add_mod n a
    rw [Nat.mul_add, Nat.mul_one]
    omega
  rw [hn]
  exact ⟨Nat.mul_mod_right _ _, Nat.mul_div_cancel_left _ ha⟩

theorem succ_mod_of_no_wrap (a n : Nat) (ha : 0 < a) (h : n % a + 1 ≠ a) :
    (n + 1) % a = n % a + 1 ∧ (n + 1) / a = n / a := by
  have hlt : n % a < a := Nat.mod_lt _ ha
  have hn : n + 1 = a * (n / a) + (n % a + 1) := by
    have := Nat.div_add_mod n a
    omega
  have hr : n % a + 1 < a := by omega
  constructor
  · conv_lhs => rw [hn]
    rw [Nat.mul_add_mod, Nat.mod_eq_of_lt hr]
  · conv_lhs => rw [hn]
    rw [Nat.mul_add_div ha, Nat.div_eq_of_lt hr, Nat.add_zero]

theorem odometer_length (a k n : Nat) : (odometer a k n).length = k := by
  induction k generalizing n with
  | zero => rfl
  | succ k ih => simp [odometer, ih]

theorem odometer_zero (a k : Nat) : odometer a k 0 = List.replicate k 0 := by
  induction k with
  | zero => rfl
  | succ k ih => simp [odometer, ih, List.replicate_succ]

theorem odometer_lt (a k n : Nat) (ha : 0 < a) : ∀ d ∈ odometer a k n, d < a := by
  induction k generalizing n with
  | zero => simp [odometer]
  | succ k ih =>
    intro d hd
    simp only [odometer, List.mem_cons] at hd
    rcases hd with rfl | hd
    · exact Nat.mod_lt _ ha
    · exact ih _ d hd

theorem odometer_getElem? (a k n i : Nat) (hi : i < k) :
    (odometer a k n)[i]? = some (n / a ^ i % a) := by
  induction k generalizing n i with
  | zero => omega
  | succ k ih =>
    cases i with
    | zero => simp [odometer]
    | succ i =>
      simp only [odometer, List.getElem?_cons_succ]
      rw [ih (n / a) i (by omega), Nat.div_div_eq_div_mul, pow_succ, Nat.mul_comm]

/-- The loop of `increment` on the state that stands for `n`: either it carries
out of the last digit, or it yields the digits and values of `n + 1`. -/
theorem incrementLoop_odometer [Inhabited α] (range : List α) (ha : 0 < range.length)
    (k n : Nat) (hn : n < range.length ^ k) :
    incrementLoop range (odometer range.length k n)
        ((odometer range.length k n).map (deref range)) =
      if n + 1 = range.length ^ k then
        (List.replicate k 0, List.replicate k (deref range 0), true)
      else
        (odometer range.length k (n + 1),
          (odometer range.length k (n + 1)).map (deref range), false) := by
  induction k generalizing n with
  | zero =>
    have : n = 0 := by simpa using hn
    subst this
    simp [odometer, incrementLoop]
  | succ k ih =>
    have hq : n / range.length < range.length ^ k := by
      rw [Nat.div_lt_iff_lt_mul ha, ← pow_succ]
      exact hn
    simp only [odometer, List.map_cons, incrementLoop, List.tail_cons]
    by_cases hw : n % range.length + 1 = range.length
    · obtain ⟨hm, hd⟩ := succ_mod_of_wrap _ _ hw
      rw [if_pos hw, ih _ hq]
      have hiff : (n + 1 = range.length ^ (k + 1)) ↔ (n / range.length + 1 = range.length ^ k) := by
        have h1 : n + 1 = range.length * (n / range.length + 1) := by
          have := Nat.div_add_mod n range.length
          rw [Nat.mul_add, Nat.mul_one]
          omega
        rw [h1, pow_succ, Nat.mul_comm (range.length ^ k)]
        exact ⟨fun h => Nat.eq_of_mul_eq_mul_left ha h, fun h => by rw [h]⟩
      by_cases he : n / range.length + 1 = range.length ^ k
      · rw [if_pos he, if_pos (hiff.mpr he)]
        simp [List.replicate_succ]
      · rw [if_neg he, if_neg (fun h => he (hiff.mp h))]
        simp [hm, hd]
    · obtain ⟨hm, hd⟩ := succ_mod_of_no_wrap _ _ ha hw
      rw [if_neg hw]
      have hne : n + 1 ≠ range.length ^ (k + 1) := by
        intro h
        have h0 : (n + 1) % range.length = 0 := by
          rw [h, pow_succ]
          exact Nat.mul_mod_left _ _
        omega
      rw [if_neg hne]
      simp [hm, hd]

theorem increment_stateOf [Inhabited α] (range : List α) (ha : 0 < range.length)
    (k n : Nat) (hn : n + 1 < range.length ^ k) :
    (stateOf storage range k n).increment = stateOf storage range k (n + 1) := by
  have h := incrementLoop_odometer range ha k n (by omega)
  rw [if_neg (by omega)] at h
  simp [CartesianPowerIterator.increment, stateOf, h]

theorem increment_stateOf_last [Inhabited α] (range : List α) (ha : 0 < range.length)
    (k n : Nat) (hn : n + 1 = range.length ^ k) :
    (stateOf storage range k n).increment = endState storage range k := by
  have h := incrementLoop_odometer range ha k n (by omega)
  rw [if_pos hn] at h
  simp [CartesianPowerIterator.increment, stateOf, h, endState, odometer_length]

theorem increment_endState [Inhabited α] (range : List α) (k : Nat) :
    (endState storage range k).increment = endState storage range k := by
  simp [CartesianPowerIterator.increment, endState]

theorem ofPower_eq_stateOf [Inhabited α] (range : List α) (hne : range ≠ []) (k : Nat) :
    CartesianPowerIterator.ofPower storage range k = stateOf storage range k 0 := by
  cases range with
  | nil => exact absurd rfl hne
  | cons first rest =>
    simp [CartesianPowerIterator.ofPower, stateOf, odometer_zero, deref]

theorem ofPower_nil (k : Nat) :
    CartesianPowerIterator.ofPower storage ([] : List α) k = endState storage [] k := by
  simp [CartesianPowerIterator.ofPower, endState]

theorem ofIterators_end [Inhabited α] (range : List α) (k : Nat) :
    CartesianPowerIterator.ofIterators storage range (List.replicate k range.length) =
      .ok (endState storage range k) := by
  unfold CartesianPowerIterator.ofIterators
  by_cases h : (range.isEmpty || (List.replicate k range.length).isEmpty) = true
  · rw [if_pos h]
    simp [endState]
  · rw [if_neg h, if_pos (by simp)]
    simp [endState]

theorem CartesianPowerRange_eq [Inhabited α] (range : List α) (k : Nat) :
    CartesianPowerRange storage range k =
      .ok (CartesianPowerIterator.ofPower storage range k, endState storage range k) := by
  simp [CartesianPowerRange, ofIterators_end]

theorem iterate_increment_ofPower [Inhabited α] (range : List α) (hne : range ≠ [])
    (k n : Nat) (hn : n < range.length ^ k) :
    CartesianPowerIterator.increment^[n] (CartesianPowerIterator.ofPower storage range k) =
      stateOf storage range k n := by
  have ha : 0 < range.length := List.length_pos.mpr hne
  induction n with
  | zero => simpa using ofPower_eq_stateOf range hne k
  | succ n ih =>
    rw [Function.iterate_succ_apply', ih (by omega)]
    exact increment_stateOf range ha k n hn

theorem iterate_increment_ofPower_last [Inhabited α] (range : List α) (hne : range ≠ [])
    (k : Nat) :
    CartesianPowerIterator.increment^[range.length ^ k]
        (CartesianPowerIterator.ofPower storage range k) =
      endState storage range k := by
  have ha : 0 < range.length := List.length_pos.mpr hne
  have hpos : 0 < range.length ^ k := Nat.pow_pos ha
  obtain ⟨m, hm⟩ : ∃ m, range.length ^ k = m + 1 := ⟨range.length ^ k - 1, by omega⟩
  rw [hm, Function.iterate_succ_apply', iterate_increment_ofPower range hne k m (by omega)]
  exact increment_stateOf_last range ha k m hm.symm

theorem storedIterators_eq_iff (a b : CartesianPowerIterator α) (h : a.storage = b.storage) :
    a.storedIterators = b.storedIterators ↔ a.iterators = b.iterators := by
  unfold CartesianPowerIterator.storedIterators
  rw [h]
  constructor
  · intro hmap
    refine List.map_injective_iff.mpr ?_ hmap
    intro x y hxy
    exact congrArg RangeIterator.offset hxy
  · intro hits
    rw [hits]

theorem equal_stateOf_endState [DecidableEq α] [Inhabited α] (range : List α)
    (ha : 0 < range.length) (k n : Nat) (hk : 1 ≤ k) :
    (stateOf storage range k n).equal (endState storage range k) = false := by
  have hne : (odometer range.length k n).reverse ≠ List.replicate k range.length := by
    intro h
    obtain ⟨j, rfl⟩ : ∃ j, k = j + 1 := ⟨k - 1, by omega⟩
    have hmem : range.length ∈ (odometer range.length (j + 1) n).reverse := by
      rw [h]
      simp [List.replicate_succ]
    have := odometer_lt range.length (j + 1) n ha range.length (List.mem_reverse.mp hmem)
    omega
  have hstored : ¬ (stateOf storage range k n).storedIterators =
      (endState storage range k).storedIterators := by
    rw [storedIterators_eq_iff (stateOf storage range k n) (endState storage range k) rfl]
    exact hne
  simp [CartesianPowerIterator.equal, hstored]

theorem equal_self [DecidableEq α] (it : CartesianPowerIterator α) : it.equal it = true := by
  simp [CartesianPowerIterator.equal]

/-- A walk that meets the end iterator after exactly `count` increments reads the
tuples of the first `count` positions, and more fuel does not change that. -/
theorem walk_of_first_equal [DecidableEq α] [Inhabited α]
    (count : Nat) (first last : CartesianPowerIterator α)
    (hbefore : ∀ m, m < count → (CartesianPowerIterator.increment^[m] first).equal last = false)
    (hat : (CartesianPowerIterator.increment^[count] first).equal last = true) (extra : Nat) :
    walk (count + 1 + extra) first last =
      some ((List.range count).map
        (fun m => (CartesianPowerIterator.increment^[m] first).dereference)) := by
  induction count generalizing first with
  | zero =>
    have h0 : first.equal last = true := by simpa using hat
    rw [show 0 + 1 + extra = extra + 1 by omega]
    simp [walk, h0]
  | succ count ih =>
    have h0 : first.equal last = false := by simpa using hbefore 0 (by omega)
    have hrec := ih first.increment
      (fun m hm => by simpa [Function.iterate_succ_apply] using hbefore (m + 1) (by omega))
      (by simpa [Function.iterate_succ_apply] using hat)
    rw [show count + 1 + 1 + extra = (count + 1 + extra) + 1 by omega]
    simp only [walk, h0, Bool.false_eq_true, if_false, hrec, Option.map_some']
    rw [List.range_succ_eq_map]
    simp [Function.iterate_succ_apply, List.map_map, Function.comp_def]

theorem odometer_reverse_succ (a k n : Nat) :
    (odometer a (k + 1) n).reverse =
      (n / a ^ k % a) :: (odometer a k (n % a ^ k)).reverse := by
  induction k generalizing n with
  | zero => simp [odometer]
  | succ k ih =>
    have h1 : n / a / a ^ k = n / a ^ (k + 1) := by
      rw [Nat.div_div_eq_div_mul, pow_succ, Nat.mul_comm]
    have h2 : n % a ^ (k + 1) / a = n / a % a ^ k := by
      rw [pow_succ, Nat.mul_comm, Nat.mod_mul_right_div_self]
    have h3 : n % a ^ (k + 1) % a = n % a :=
      Nat.mod_mod_of_dvd n (Dvd.intro_left (a ^ k) (pow_succ a k).symm)
    have hstep : ∀ j m, odometer a (j + 1) m = (m % a) :: odometer a j (m / a) :=
      fun _ _ => rfl
    rw [hstep (k + 1) n, List.reverse_cons, ih (n / a), h1, hstep k (n % a ^ (k + 1)),
      List.reverse_cons, h2, h3]
    simp

/-- The digit vectors, most significant digit first, are ordered as the numbers
they stand for. -/
theorem odometer_reverse_lex (a k n m : Nat) (ha : 0 < a) (hnm : n < m) (hm : m < a ^ k) :
    List.Lex (· < ·) (odometer a k n).reverse (odometer a k m).reverse := by
  induction k generalizing n m with
  | zero => simp at hm; omega
  | succ k ih =>
    have hp : 0 < a ^ k := Nat.pow_pos ha
    have hqm : m / a ^ k < a := by
      rw [Nat.div_lt_iff_lt_mul hp, Nat.mul_comm, ← pow_succ]
      exact hm
    have hle : n / a ^ k ≤ m / a ^ k := Nat.div_le_div_right (by omega)
    have hqn : n / a ^ k < a := by omega
    rw [odometer_reverse_succ, odometer_reverse_succ, Nat.mod_eq_of_lt hqm, Nat.mod_eq_of_lt hqn]
    rcases Nat.lt_or_eq_of_le hle with hlt | heq
    · exact List.Lex.rel hlt
    · rw [heq]
      refine List.Lex.cons (ih _ _ ?_ (Nat.mod_lt _ hp))
      have e1 := Nat.div_add_mod n (a ^ k)
      have e2 := Nat.div_add_mod m (a ^ k)
      rw [heq] at e1
      omega

theorem deref_eq_getElem [Inhabited α] (range : List α) (i : Nat) (hi : i < range.length) :
    deref range i = range[i] := by
  simp [deref, List.getD_eq_getElem, hi]

theorem getElem?_eq_some_deref [Inhabited α] (range : List α) (i : Nat) (hi : i < range.length) :
    range[i]? = some (deref range i) := by
  rw [deref_eq_getElem range i hi]
  exact List.getElem?_eq_getElem hi

theorem deref_mem [Inhabited α] (range : List α) (i : Nat) (hi : i < range.length) :
    deref range i ∈ range := by
  rw [deref_eq_getElem range i hi]
  exact List.getElem_mem hi

theorem deref_strictMono [LT α] [Inhabited α] (range : List α)
    (hsorted : range.Sorted (· < ·)) (i j : Nat) (hij : i < j) (hj : j < range.length) :
    deref range i < deref range j := by
  rw [deref_eq_getElem range i (by omega), deref_eq_getElem range j hj]
  exact (List.pairwise_iff_getElem.mp hsorted) i j (by omega) hj hij

theorem lex_map_deref [LT α] [Inhabited α] (range : List α)
    (hsorted : range.Sorted (· < ·)) (l₁ l₂ : List Nat)
    (h : List.Lex (· < ·) l₁ l₂) (h₂ : ∀ d ∈ l₂, d < range.length) :
    List.Lex (· < ·) (l₁.map (deref range)) (l₂.map (deref range)) := by
  induction h with
  | nil => exact List.Lex.nil
  | cons _ ih =>
    exact List.Lex.cons (ih (fun d hd => h₂ d (List.mem_cons_of_mem _ hd)))
  | rel hlt =>
    exact List.Lex.rel (deref_strictMono range hsorted _ _ hlt (h₂ _ (List.mem_cons_self _ _)))

theorem stateOf_dereference [Inhabited α] (range : List α) (k n : Nat) :
    (stateOf storage range k n).dereference =
      (odometer range.length k n).reverse.map (deref range) := by
  simp [stateOf, CartesianPowerIterator.dereference, List.map_reverse]

theorem stateOf_dereference_getElem? [Inhabited α] (range : List α) (ha : 0 < range.length)
    (k n j : Nat) (hj : j < k) :
    (stateOf storage range k n).dereference[j]? =
      range[n / range.length ^ (k - 1 - j) % range.length]? := by
  rw [stateOf_dereference, List.getElem?_map,
    List.getElem?_reverse (by rw [odometer_length]; exact hj), odometer_length,
    odometer_getElem? _ _ _ _ (by omega), Option.map_some',
    getElem?_eq_some_deref range _ (Nat.mod_lt _ ha)]

/-- The walk over the whole range of a non-empty alphabet with power at least
one reads the tuples of the numbers `0, 1, ..., a ^ k - 1` in this order. -/
theorem walk_CartesianPower [DecidableEq α] [Inhabited α] (range : List α) (hne : range ≠ [])
    (k : Nat) (hk : 1 ≤ k) (extra : Nat) :
    walk (range.length ^ k + 1 + extra) (CartesianPowerIterator.ofPower storage range k)
        (endState storage range k) =
      some ((List.range (range.length ^ k)).map
        (fun n => (stateOf storage range k n).dereference)) := by
  have ha : 0 < range.length := List.length_pos.mpr hne
  rw [walk_of_first_equal (range.length ^ k) _ _
    (fun m hm => by
      rw [iterate_increment_ofPower range hne k m hm]
      exact equal_stateOf_endState range ha k m hk)
    (by rw [iterate_increment_ofPower_last range hne k]; exact equal_self _) extra]
  congr 1
  apply List.map_congr_left
  intro n hn
  rw [iterate_increment_ofPower range hne k n (List.mem_range.mp hn)]

theorem equal_ofPower_endState_zero [DecidableEq α] [Inhabited α] (range : List α) :
    (CartesianPowerIterator.ofPower storage range 0).equal (endState storage range 0) = true := by
  cases range <;>
    simp [CartesianPowerIterator.ofPower, endState, CartesianPowerIterator.equal,
      CartesianPowerIterator.storedIterators]

/-- The walk stops at once, without reading a tuple, when the begin iterator
already compares equal to the end iterator. -/
theorem walk_of_equal [DecidableEq α] [Inhabited α] (first last : CartesianPowerIterator α)
    (h : first.equal last = true) (fuel : Nat) (hfuel : fuel ≠ 0) :
    walk fuel first last = some [] := by
  cases fuel with
  | zero => exact absurd rfl hfuel
  | succ fuel => simp [walk, h]

theorem walk_nil_alphabet [DecidableEq α] [Inhabited α] (k fuel : Nat) (hfuel : fuel ≠ 0) :
    walk fuel (CartesianPowerIterator.ofPower storage ([] : List α) k)
      (endState storage [] k) = some [] := by
  rw [ofPower_nil]
  exact walk_of_equal _ _ (equal_self _) fuel hfuel

theorem walk_power_zero [DecidableEq α] [Inhabited α] (range : List α) (fuel : Nat)
    (hfuel : fuel ≠ 0) :
    walk fuel (CartesianPowerIterator.ofPower storage range 0)
      (endState storage range 0) = some [] :=
  walk_of_equal _ _ (equal_ofPower_endState_zero range) fuel hfuel

end EnumeratorLemmas

/-! ## Part 6. The enumerator: length, order and contents of the sequence -/

section EnumeratorClaims

variable {α : Type} {storage : Nat}

/-- C1 (as amended): for every alphabet with `a` symbols and every power `k`,
the walk over `CartesianPowerRange alphabet k` from the begin iterator until it
compares equal to the end iterator ends and reads exactly `a ^ k` tuples when
`k ≥ 1`, and no tuple at all when `k = 0`; more fuel never changes the result. -/
theorem CartesianPowerRange_walk_length [DecidableEq α] [Inhabited α]
    (range : List α) (k extra : Nat) :
    ∃ r, CartesianPowerRange storage range k = .ok r ∧
      ∃ tuples, walk (range.length ^ k + 1 + extra) r.1 r.2 = some tuples ∧
        tuples.length = if k = 0 then 0 else range.length ^ k := by
  refine ⟨_, CartesianPowerRange_eq range k, ?_⟩
  by_cases hne : range = []
  · subst hne
    refine ⟨[], walk_nil_alphabet k _ (by omega), ?_⟩
    cases k <;> simp
  · by_cases hk : k = 0
    · subst hk
      exact ⟨[], walk_power_zero range _ (by omega), by simp⟩
    · refine ⟨_, walk_CartesianPower range hne k (by omega) extra, ?_⟩
      simp [hk]

/-- C1, counterexample: over the one-symbol alphabet `[7]` with power `0` no
amount of fuel makes the walk read `1 ^ 0 = 1` tuple: the begin iterator equals
the end iterator from the start. -/
theorem CartesianPowerRange_power_zero_reads_nothing :
    ¬ ∃ r tuples fuel, CartesianPowerRange 0 ([7] : List Nat) 0 = .ok r ∧
        walk fuel r.1 r.2 = some tuples ∧ tuples.length = [7].length ^ 0 := by
  rintro ⟨r, tuples, fuel, hr, hw, hlen⟩
  rw [CartesianPowerRange_eq] at hr
  cases hr
  cases fuel with
  | zero => simp [walk] at hw
  | succ fuel =>
    have h0 : walk (fuel + 1) (CartesianPowerIterator.ofPower 0 ([7] : List Nat) 0)
        (endState 0 [7] 0) = some [] := walk_power_zero _ _ (by omega)
    simp only [] at hw
    rw [h0] at hw
    cases hw
    simp at hlen

/-- C2: for a non-empty alphabet of `a` symbols, every power `k` (every `k ≥ 1`
in particular) and `n < a ^ k`, the
tuple read from the begin iterator after `n` increments has `k` entries, and the
entry at position `j` is the alphabet symbol at index `(n / a ^ (k - 1 - j)) % a`;
the first tuple is `k` copies of the first symbol of the alphabet. -/
theorem CartesianPowerRange_tuple_digits [Inhabited α]
    (range : List α) (k n : Nat) (hne : range ≠ []) (hn : n < range.length ^ k) :
    ∃ r, CartesianPowerRange storage range k = .ok r ∧
      (CartesianPowerIterator.increment^[n] r.1).dereference.length = k ∧
      (∀ j, j < k →
        (CartesianPowerIterator.increment^[n] r.1).dereference[j]? =
          range[n / range.length ^ (k - 1 - j) % range.length]?) ∧
      (∀ j, j < k → n / range.length ^ (k - 1 - j) % range.length < range.length) ∧
      r.1.dereference = List.replicate k (range.head hne) := by
  have ha : 0 < range.length := List.length_pos.mpr hne
  refine ⟨_, CartesianPowerRange_eq range k, ?_, ?_, ?_, ?_⟩
  · simp only []
    rw [iterate_increment_ofPower range hne k n hn, stateOf_dereference]
    simp [odometer_length]
  · intro j hj
    simp only []
    rw [iterate_increment_ofPower range hne k n hn]
    exact stateOf_dereference_getElem? range ha k n j hj
  · intro j _
    exact Nat.mod_lt _ ha
  · cases range with
    | nil => exact absurd rfl hne
    | cons first rest => simp [CartesianPowerIterator.ofPower, CartesianPowerIterator.dereference]

/-- C2, witness: the alphabet `[5, 6, 7]`, power `2`, after `5` increments. -/
theorem CartesianPowerRange_tuple_digits_witness :
    ∃ r, CartesianPowerRange 0 ([5, 6, 7] : List Nat) 2 = .ok r ∧
      (CartesianPowerIterator.increment^[5] r.1).dereference.length = 2 ∧
      (∀ j, j < 2 →
        (CartesianPowerIterator.increment^[5] r.1).dereference[j]? =
          ([5, 6, 7] : List Nat)[5 / [5, 6, 7].length ^ (2 - 1 - j) % [5, 6, 7].length]?) ∧
      (∀ j, j < 2 → 5 / [5, 6, 7].length ^ (2 - 1 - j) % [5, 6, 7].length < [5, 6, 7].length) ∧
      r.1.dereference = List.replicate 2 (([5, 6, 7] : List Nat).head (by decide)) :=
  CartesianPowerRange_tuple_digits [5, 6, 7] 2 5 (by decide) (by decide)

/-- C9: for the empty alphabet and every power `k` (every `k > 0` in
particular) the begin iterator of `CartesianPowerRange` compares equal to its
end iterator and holds no tuple, and the walk over the range ends at once with
zero tuples read, whatever the fuel. -/
theorem CartesianPowerRange_empty_alphabet [DecidableEq α] [Inhabited α] (k fuel : Nat) :
    ∃ r, CartesianPowerRange storage ([] : List α) k = .ok r ∧
      r.1.equal r.2 = true ∧ r.1.dereference = [] ∧ walk (fuel + 1) r.1 r.2 = some [] := by
  refine ⟨_, CartesianPowerRange_eq [] k, ?_, ?_, walk_nil_alphabet k _ (by omega)⟩
  · show (CartesianPowerIterator.ofPower storage ([] : List α) k).equal
      (endState storage [] k) = true
    rw [ofPower_nil]
    exact equal_self _
  · simp [CartesianPowerIterator.ofPower, CartesianPowerIterator.dereference]

/-- C10: for an alphabet whose symbols are strictly increasing and every power
`k` (every `k ≥ 1` in particular), the walk over `CartesianPowerRange` ends, every
tuple it reads has length `k` and consists of alphabet symbols only, and every
tuple is strictly greater, in the lexicographic order of the symbols, than the
tuple read just before it. -/
theorem CartesianPowerRange_tuples_increasing [LinearOrder α] [Inhabited α]
    (range : List α) (k extra : Nat) (hsorted : range.Sorted (· < ·)) :
    ∃ r, CartesianPowerRange storage range k = .ok r ∧
      ∃ tuples, walk (range.length ^ k + 1 + extra) r.1 r.2 = some tuples ∧
        (∀ t ∈ tuples, t.length = k ∧ ∀ x ∈ t, x ∈ range) ∧
        tuples.Chain' (List.Lex (· < ·)) := by
  refine ⟨_, CartesianPowerRange_eq range k, ?_⟩
  by_cases hne : range = []
  · subst hne
    exact ⟨[], walk_nil_alphabet k _ (by omega), by simp, by simp⟩
  · by_cases hk : k = 0
    · subst hk
      exact ⟨[], walk_power_zero range _ (by omega), by simp, by simp⟩
    · have ha : 0 < range.length := List.length_pos.mpr hne
      refine ⟨_, walk_CartesianPower range hne k (by omega) extra, ?_, ?_⟩
      · intro t ht
        obtain ⟨n, -, rfl⟩ := List.mem_map.mp ht
        rw [stateOf_dereference]
        refine ⟨by simp [odometer_length], ?_⟩
        intro x hx
        obtain ⟨d, hd, rfl⟩ := List.mem_map.mp hx
        exact deref_mem range d (odometer_lt _ _ _ ha d (List.mem_reverse.mp hd))
      · rw [List.chain'_map]
        obtain ⟨m, hm⟩ : ∃ m, range.length ^ k = m + 1 :=
          ⟨range.length ^ k - 1, by have := Nat.pow_pos (n := k) ha; omega⟩
        rw [hm, List.chain'_range_succ]
        intro n hn
        rw [stateOf_dereference, stateOf_dereference]
        refine lex_map_deref range hsorted _ _
          (odometer_reverse_lex _ _ _ _ ha (Nat.lt_succ_self n) (by omega)) ?_
        intro d hd
        exact odometer_lt _ _ _ ha d (List.mem_reverse.mp hd)

/-- C10, witness: the alphabet `[1, 4, 7]` (the range `irange(1, 10, 3)`) with
power `2`. -/
theorem CartesianPowerRange_tuples_increasing_witness :
    ∃ r, CartesianPowerRange 0 ([1, 4, 7] : List Nat) 2 = .ok r ∧
      ∃ tuples, walk ([1, 4, 7].length ^ 2 + 1 + 0) r.1 r.2 = some tuples ∧
        (∀ t ∈ tuples, t.length = 2 ∧ ∀ x ∈ t, x ∈ ([1, 4, 7] : List Nat)) ∧
        tuples.Chain' (List.Lex (· < ·)) :=
  CartesianPowerRange_tuples_increasing [1, 4, 7] 2 0 (by decide)

end EnumeratorClaims

/-! ## Part 7. Lemmas on the oracle -/

theorem processGcryError_zero : processGcryError 0 = .ok () := rfl

theorem processGcryError_of_ne_zero (code : Nat) (h : code ≠ 0) :
    processGcryError code = .error ⟨code⟩ := by
  simp [processGcryError, h]

theorem take_writeBuffer (buffer data : List Nat) :
    (writeBuffer buffer data).take data.length = data := by
  unfold writeBuffer
  exact List.take_left' rfl

/-- What a call computes when the engine reports no error. -/
theorem isPasswordAcceptable_of_engineAccepts (engine : CipherEngine) (self : CheckPassword)
    (password : List Nat) (h : engineAccepts engine self password) :
    (self.isPasswordAcceptable engine password).1 =
        .ok (decide ((writeBuffer self.sha256HashResult (engine.sha256
            ((decryptionFor engine self password).take self.cipherTextSize))).take
              self.sha256CheckSumSize = self.sha256CheckSum.take self.sha256CheckSumSize)) ∧
      (self.isPasswordAcceptable engine password).2.originalText =
        decryptionFor engine self password := by
  obtain ⟨h1, h2, h3⟩ := h
  simp only [handleFor, expandKey, tripleDESKeySize] at h1 h2 h3
  simp [CheckPassword.isPasswordAcceptable, md5CheckSumSize, tripleDESKeySize, h1, h2, h3,
    processGcryError_zero, decryptionFor, handleFor, expandKey]

/-- What a call returns when the engine reports no error and the checksum field
has the length of the digest: the comparison of the digest with the checksum. -/
theorem isPasswordAcceptable_of_digest_sized (engine : CipherEngine) (self : CheckPassword)
    (password : List Nat) (h : engineAccepts engine self password)
    (hsize : (engine.sha256
      ((decryptionFor engine self password).take self.cipherTextSize)).length =
        self.sha256CheckSumSize) :
    (self.isPasswordAcceptable engine password).1 =
      .ok (decide ((engine.sha256
          ((decryptionFor engine self password).take self.cipherTextSize)).take
            self.sha256CheckSumSize = self.sha256CheckSum.take self.sha256CheckSumSize)) := by
  rw [(isPasswordAcceptable_of_engineAccepts engine self password h).1]
  have htake := take_writeBuffer self.sha256HashResult
    (engine.sha256 ((decryptionFor engine self password).take self.cipherTextSize))
  rw [hsize] at htake
  rw [htake, ← hsize, List.take_length]

/-- What a call throws when the engine reports an error: the plaintext buffer is
left as it was. -/
theorem isPasswordAcceptable_of_not_engineAccepts (engine : CipherEngine) (self : CheckPassword)
    (password : List Nat) (h : ¬ engineAccepts engine self password) :
    (∃ e, (self.isPasswordAcceptable engine password).1 = .error e) ∧
      (self.isPasswordAcceptable engine password).2.originalText = self.originalText := by
  simp only [engineAccepts, handleFor, expandKey, tripleDESKeySize] at h
  by_cases h1 : engine.setkeyError
      (List.take 24 (List.take 16 (engine.md5 password) ++ List.take 8 (engine.md5 password))) = 0
  · by_cases h2 : engine.setivError (List.take self.initialValueSize self.initialValue) = 0
    · have h3 := fun h3 => h ⟨h1, h2, h3⟩
      simp [CheckPassword.isPasswordAcceptable, md5CheckSumSize, tripleDESKeySize, h1, h2,
        processGcryError_zero, processGcryError_of_ne_zero _ h3]
    · simp [CheckPassword.isPasswordAcceptable, md5CheckSumSize, tripleDESKeySize, h1,
        processGcryError_zero, processGcryError_of_ne_zero _ h2]
  · simp [CheckPassword.isPasswordAcceptable, md5CheckSumSize, tripleDESKeySize,
      processGcryError_of_ne_zero _ h1]

theorem sameContext_refl (s : CheckPassword) : sameContext s s :=
  ⟨rfl, rfl, rfl, rfl, rfl, rfl⟩

theorem sameContext_trans {s t u : CheckPassword} (h₁ : sameContext s t) (h₂ : sameContext t u) :
    sameContext s u := by
  obtain ⟨a1, a2, a3, a4, a5, a6⟩ := h₁
  obtain ⟨b1, b2, b3, b4, b5, b6⟩ := h₂
  exact ⟨a1.trans b1, a2.trans b2, a3.trans b3, a4.trans b4, a5.trans b5, a6.trans b6⟩

theorem sameContext_symm {s t : CheckPassword} (h : sameContext s t) : sameContext t s := by
  obtain ⟨a1, a2, a3, a4, a5, a6⟩ := h
  exact ⟨a1.symm, a2.symm, a3.symm, a4.symm, a5.symm, a6.symm⟩

/-- A call never changes the ciphertext context of the oracle. -/
theorem sameContext_isPasswordAcceptable (engine : CipherEngine) (self : CheckPassword)
    (password : List Nat) :
    sameContext self (self.isPasswordAcceptable engine password).2 := by
  unfold CheckPassword.isPasswordAcceptable
  simp only []
  split
  · exact ⟨rfl, rfl, rfl, rfl, rfl, rfl⟩
  · split
    · exact ⟨rfl, rfl, rfl, rfl, rfl, rfl⟩
    · split
      · exact ⟨rfl, rfl, rfl, rfl, rfl, rfl⟩
      · exact ⟨rfl, rfl, rfl, rfl, rfl, rfl⟩

theorem sameContext_afterCalls (engine : CipherEngine) (self : CheckPassword)
    (earlier : List (List Nat)) : sameContext self (self.afterCalls engine earlier) := by
  induction earlier generalizing self with
  | nil => exact sameContext_refl self
  | cons password later ih =>
    exact sameContext_trans (sameContext_isPasswordAcceptable engine self password) (ih _)

theorem sameContext_construct (engine : CipherEngine) (file : ParsedFile)
    (fresh fresh' : ScratchBuffers) (s t : CheckPassword)
    (hs : CheckPassword.construct engine file fresh = .ok s)
    (ht : CheckPassword.construct engine file fresh' = .ok t) : sameContext s t := by
  unfold CheckPassword.construct at hs ht
  split at hs
  · cases hs
  · split at ht
    · cases ht
    · cases hs
      cases ht
      exact ⟨rfl, rfl, rfl, rfl, rfl, rfl⟩

theorem handleFor_congr (engine : CipherEngine) {s t : CheckPassword} (h : sameContext s t)
    (password : List Nat) : handleFor engine s password = handleFor engine t password := by
  obtain ⟨-, -, a3, -, -, a6⟩ := h
  simp [handleFor, a3, a6]

theorem decryptionFor_congr (engine : CipherEngine) {s t : CheckPassword} (h : sameContext s t)
    (password : List Nat) : decryptionFor engine s password = decryptionFor engine t password := by
  have hh := handleFor_congr engine h password
  obtain ⟨a1, -, -, a4, -, -⟩ := h
  simp [decryptionFor, hh, a1, a4]

theorem engineAccepts_congr (engine : CipherEngine) {s t : CheckPassword} (h : sameContext s t)
    (password : List Nat) : engineAccepts engine s password ↔ engineAccepts engine t password := by
  have hh := handleFor_congr engine h password
  obtain ⟨a1, -, -, a4, -, -⟩ := h
  simp [engineAccepts, hh, a1, a4]

/-- The error a call throws is fixed by the context and the password. -/
theorem isPasswordAcceptable_error_congr (engine : CipherEngine) {s t : CheckPassword}
    (h : sameContext s t) (password : List Nat) (hno : ¬ engineAccepts engine s password) :
    (s.isPasswordAcceptable engine password).1 = (t.isPasswordAcceptable engine password).1 := by
  obtain ⟨a1, a2, a3, a4, a5, a6⟩ := h
  simp only [engineAccepts, handleFor, expandKey, tripleDESKeySize, a1, a3, a4, a6] at hno
  by_cases h1 : engine.setkeyError
      (List.take 24 (List.take 16 (engine.md5 password) ++ List.take 8 (engine.md5 password))) = 0
  · by_cases h2 : engine.setivError (List.take t.initialValueSize t.initialValue) = 0
    · have h3 := fun h3 => hno ⟨h1, h2, h3⟩
      simp [CheckPassword.isPasswordAcceptable, md5CheckSumSize, tripleDESKeySize, h1, h2,
        processGcryError_zero, processGcryError_of_ne_zero _ h3, a1, a3, a4, a6]
    · simp [CheckPassword.isPasswordAcceptable, md5CheckSumSize, tripleDESKeySize, h1,
        processGcryError_zero, processGcryError_of_ne_zero _ h2, a3, a6]
  · simp [CheckPassword.isPasswordAcceptable, md5CheckSumSize, tripleDESKeySize,
      processGcryError_of_ne_zero _ h1]

/-- What a call returns or throws is fixed by the context and the password, when
the checksum field of the context has the length of the digest. -/
theorem isPasswordAcceptable_result_congr (engine : CipherEngine) {s t : CheckPassword}
    (h : sameContext s t) (password : List Nat)
    (hsize : ∀ text, (engine.sha256 text).length = s.sha256CheckSumSize) :
    (s.isPasswordAcceptable engine password).1 = (t.isPasswordAcceptable engine password).1 := by
  by_cases hacc : engineAccepts engine s password
  · have hacc' := (engineAccepts_congr engine h password).mp hacc
    rw [isPasswordAcceptable_of_digest_sized engine s password hacc (hsize _),
      isPasswordAcceptable_of_digest_sized engine t password hacc'
        (by rw [← h.2.1]; exact hsize _),
      decryptionFor_congr engine h password, h.1, h.2.1, h.2.2.2.2.1]
  · exact isPasswordAcceptable_error_congr engine h password hacc

/-! ## Part 8. The oracle: acceptance, round trip, key expansion, no carried state -/

/-- C4: round trip.  Let the content of the context be the encryption of the
plaintext `P` under the key expanded from the MD5 digest of the password `W`
and the initial value `iv`, of the length of `P`, and let the checksum be the
SHA-256 digest of `P`.  If the engine decrypts that content under that key and
initial value without an error and gives `P` back, then on an oracle built for
this context `isPasswordAcceptable W` returns `true` and `getDecryptedText`
then returns exactly `P`. -/
theorem isPasswordAcceptable_round_trip (engine : CipherEngine)
    (encrypt : List Nat → List Nat → List Nat → List Nat)
    (P W iv : List Nat) (fresh : ScratchBuffers) (self : CheckPassword)
    (hself : CheckPassword.construct engine
      { initialValue := iv
        content := encrypt ((expandKey (engine.md5 W)).take tripleDESKeySize) iv P
        shaCheckSum := engine.sha256 P
        initialValueSize := iv.length
        contentSize := (encrypt ((expandKey (engine.md5 W)).take tripleDESKeySize) iv P).length
        shaCheckSumSize := (engine.sha256 P).length } fresh = .ok self)
    (hlength : (encrypt ((expandKey (engine.md5 W)).take tripleDESKeySize) iv P).length = P.length)
    (hok : engineAccepts engine self W)
    (hinverse : engine.decrypt ⟨(expandKey (engine.md5 W)).take tripleDESKeySize, iv⟩
      (encrypt ((expandKey (engine.md5 W)).take tripleDESKeySize) iv P) = P) :
    (self.isPasswordAcceptable engine W).1 = .ok true ∧
      (self.isPasswordAcceptable engine W).2.getDecryptedText = P := by
  have hfields : self.cipherTextSize = P.length ∧ self.initialValueSize = iv.length ∧
      self.initialValue = iv ∧ self.sha256CheckSum = engine.sha256 P ∧
      self.sha256CheckSumSize = (engine.sha256 P).length ∧
      self.cipherText = encrypt ((expandKey (engine.md5 W)).take tripleDESKeySize) iv P := by
    unfold CheckPassword.construct at hself
    split at hself
    · cases hself
    · cases hself
      exact ⟨hlength, rfl, rfl, rfl, rfl, rfl⟩
  obtain ⟨f1, f2, f3, f4, f5, f6⟩ := hfields
  have hdec : decryptionFor engine self W = P := by
    simp only [decryptionFor, handleFor, f1, f2, f3, f6]
    rw [List.take_length, ← hlength, List.take_length, hinverse]
  obtain ⟨-, htext⟩ := isPasswordAcceptable_of_engineAccepts engine self W hok
  have hsize : (engine.sha256 ((decryptionFor engine self W).take self.cipherTextSize)).length =
      self.sha256CheckSumSize := by
    rw [hdec, f1, List.take_length, f5]
  have hres := isPasswordAcceptable_of_digest_sized engine self W hok hsize
  have hctx := sameContext_isPasswordAcceptable engine self W
  refine ⟨?_, ?_⟩
  · rw [hres, hdec, f1, f4, f5]
    simp
  · rw [CheckPassword.getDecryptedText, htext, hdec, ← hctx.1, f1, List.take_length]

/-- C5: for every candidate whose MD5 digest has 16 bytes, the key buffer that
`isPasswordAcceptable` hands to the cipher has 24 bytes, its bytes `[0..16)` are
the digest, its bytes `[16..24)` are bytes `[0..8)` of the digest, hence equal to
bytes `[0..8)` of the key; and when the call does not throw, this buffer is the
key of the cipher handle. -/
theorem isPasswordAcceptable_key_expansion (engine : CipherEngine) (self : CheckPassword)
    (password : List Nat) (hdigest : (engine.md5 password).length = 16) :
    (self.isPasswordAcceptable engine password).2.tripleDesKey.length = 24 ∧
      (self.isPasswordAcceptable engine password).2.tripleDesKey.take 16 = engine.md5 password ∧
      (self.isPasswordAcceptable engine password).2.tripleDesKey.drop 16 =
        (engine.md5 password).take 8 ∧
      (self.isPasswordAcceptable engine password).2.tripleDesKey.drop 16 =
        (self.isPasswordAcceptable engine password).2.tripleDesKey.take 8 ∧
      (∀ b, (self.isPasswordAcceptable engine password).1 = .ok b →
        (self.isPasswordAcceptable engine password).2.cipher.key =
          (self.isPasswordAcceptable engine password).2.tripleDesKey) := by
  have hkey : (self.isPasswordAcceptable engine password).2.tripleDesKey =
      engine.md5 password ++ (engine.md5 password).take 8 := by
    have h16 : (engine.md5 password).take 16 = engine.md5 password := by
      rw [← hdigest, List.take_length]
    unfold CheckPassword.isPasswordAcceptable
    simp only [md5CheckSumSize, tripleDESKeySize]
    split
    · simp [h16]
    · split
      · simp [h16]
      · split
        · simp [h16]
        · simp [h16]
  have hlen8 : ((engine.md5 password).take 8).length = 8 := by
    rw [List.length_take, hdigest]
    rfl
  refine ⟨?_, ?_, ?_, ?_, ?_⟩
  · rw [hkey, List.length_append, hdigest, hlen8]
  · rw [hkey, ← hdigest, List.take_left]
  · rw [hkey, ← hdigest, List.drop_left]
  · rw [hkey, ← hdigest, List.drop_left, List.take_append_of_le_length (by omega)]
  · intro b hb
    rw [hkey]
    have htake : (engine.md5 password ++ (engine.md5 password).take 8).take 24 =
        engine.md5 password ++ (engine.md5 password).take 8 := by
      apply List.take_of_length_le
      rw [List.length_append, hdigest, hlen8]
    have h16 : (engine.md5 password).take 16 = engine.md5 password := by
      rw [← hdigest, List.take_length]
    revert hb
    unfold CheckPassword.isPasswordAcceptable
    simp only [md5CheckSumSize, tripleDESKeySize]
    split
    · intro hb; cases hb
    · split
      · intro hb; cases hb
      · split
        · intro hb; cases hb
        · intro _
          simp [h16, htake]

/-- C4, witness: the plaintext `[240, 250, 4, 14, 24, 34, 44, 54]`, the password
`[97]` and the initial value `[1, ..., 8]` with `sampleEngine` and
`sampleEncrypt`. -/
theorem isPasswordAcceptable_round_trip_witness :
    engineAccepts sampleEngine sampleOracle [97] ∧
      (sampleOracle.isPasswordAcceptable sampleEngine [97]).1 = .ok true ∧
      (sampleOracle.isPasswordAcceptable sampleEngine [97]).2.getDecryptedText =
        [240, 250, 4, 14, 24, 34, 44, 54] :=
  ⟨by decide, isPasswordAcceptable_round_trip sampleEngine sampleEncrypt [240, 250, 4, 14, 24, 34, 44, 54]
    [97] [1, 2, 3, 4, 5, 6, 7, 8] sampleScratch sampleOracle rfl (by decide) (by decide)
    (by decide)⟩

/-- C5, witness: the oracle `sampleOracle` and the candidate `[97]`. -/
theorem isPasswordAcceptable_key_expansion_witness :
    (sampleEngine.md5 [97]).length = 16 ∧
      (sampleOracle.isPasswordAcceptable sampleEngine [97]).2.tripleDesKey.length = 24 ∧
      (sampleOracle.isPasswordAcceptable sampleEngine [97]).2.tripleDesKey.take 16 =
        sampleEngine.md5 [97] ∧
      (sampleOracle.isPasswordAcceptable sampleEngine [97]).2.tripleDesKey.drop 16 =
        (sampleEngine.md5 [97]).take 8 ∧
      (sampleOracle.isPasswordAcceptable sampleEngine [97]).2.tripleDesKey.drop 16 =
        (sampleOracle.isPasswordAcceptable sampleEngine [97]).2.tripleDesKey.take 8 ∧
      (∀ b, (sampleOracle.isPasswordAcceptable sampleEngine [97]).1 = .ok b →
        (sampleOracle.isPasswordAcceptable sampleEngine [97]).2.cipher.key =
          (sampleOracle.isPasswordAcceptable sampleEngine [97]).2.tripleDesKey) :=
  ⟨by decide, isPasswordAcceptable_key_expansion sampleEngine sampleOracle [97] (by decide)⟩

/-- C6 (as amended): for every oracle of a context whose checksum field has the
length of the SHA-256 digest (as in `main`, where both have 32 bytes), every
candidate `c` and every sequence of earlier `isPasswordAcceptable` calls on that
oracle, what `isPasswordAcceptable c` returns or throws is the same as on a
freshly constructed oracle for the same context; and when the call does not
throw a cipher-engine error, the plaintext it leaves is the same as on the
freshly constructed oracle too. -/
theorem isPasswordAcceptable_independent_of_history (engine : CipherEngine) (file : ParsedFile)
    (scratch scratch' : ScratchBuffers) (used new : CheckPassword)
    (earlier : List (List Nat)) (password : List Nat)
    (hused : CheckPassword.construct engine file scratch = .ok used)
    (hnew : CheckPassword.construct engine file scratch' = .ok new)
    (hsize : ∀ text, (engine.sha256 text).length = file.shaCheckSumSize) :
    ((used.afterCalls engine earlier).isPasswordAcceptable engine password).1 =
        (new.isPasswordAcceptable engine password).1 ∧
      ((∃ b, (new.isPasswordAcceptable engine password).1 = .ok b) →
        ((used.afterCalls engine earlier).isPasswordAcceptable engine password).2.getDecryptedText =
          (new.isPasswordAcceptable engine password).2.getDecryptedText) := by
  have hctx : sameContext (used.afterCalls engine earlier) new :=
    sameContext_trans (sameContext_symm (sameContext_afterCalls engine used earlier))
      (sameContext_construct engine file scratch scratch' used new hused hnew)
  have hnewsize : new.sha256CheckSumSize = file.shaCheckSumSize := by
    unfold CheckPassword.construct at hnew
    split at hnew
    · cases hnew
    · cases hnew
      rfl
  have hsize' : ∀ text, (engine.sha256 text).length =
      (used.afterCalls engine earlier).sha256CheckSumSize := by
    intro text
    rw [hctx.2.1, hnewsize]
    exact hsize text
  refine ⟨isPasswordAcceptable_result_congr engine hctx password hsize', ?_⟩
  rintro ⟨b, hb⟩
  have hacc : engineAccepts engine new password := by
    by_contra hno
    obtain ⟨⟨e, he⟩, -⟩ := isPasswordAcceptable_of_not_engineAccepts engine new password hno
    rw [he] at hb
    cases hb
  have hacc' := (engineAccepts_congr engine hctx password).mpr hacc
  have h1 := (isPasswordAcceptable_of_engineAccepts engine _ password hacc').2
  have h2 := (isPasswordAcceptable_of_engineAccepts engine new password hacc).2
  have c1 := (sameContext_isPasswordAcceptable engine (used.afterCalls engine earlier) password).1
  have c2 := (sameContext_isPasswordAcceptable engine new password).1
  rw [CheckPassword.getDecryptedText, CheckPassword.getDecryptedText, h1, h2, ← c1, ← c2,
    decryptionFor_congr engine hctx password, hctx.1]

/-- C6, witness: the oracle of `sampleFile` after the call for `[98]`, then the
call for `[97]`. -/
theorem isPasswordAcceptable_independent_of_history_witness :
    ((sampleOracle.afterCalls sampleEngine [[98]]).isPasswordAcceptable sampleEngine [97]).1 =
        (sampleOracle.isPasswordAcceptable sampleEngine [97]).1 ∧
      ((∃ b, (sampleOracle.isPasswordAcceptable sampleEngine [97]).1 = .ok b) →
        ((sampleOracle.afterCalls sampleEngine [[98]]).isPasswordAcceptable
            sampleEngine [97]).2.getDecryptedText =
          (sampleOracle.isPasswordAcceptable sampleEngine [97]).2.getDecryptedText) :=
  isPasswordAcceptable_independent_of_history sampleEngine sampleFile sampleScratch sampleScratch
    sampleOracle sampleOracle [[98]] [97] rfl rfl (fun text => by simp [sampleEngine, sampleFile])

/-- C6, counterexample: with `sampleEngine` the call for the candidate `[]`
throws in `gcry_cipher_setkey` (the expanded key is refused), before the
decryption is reached.  On the freshly constructed oracle it leaves the
plaintext buffer as constructed, after an earlier call for `[97]` it leaves
the plaintext of `[97]`, and after an earlier call for `[98]` the plaintext of
`[98]`: the plaintext left is not the one of a freshly constructed oracle.
And for `longChecksumFile`, whose checksum field is longer than the digest, the
result for the candidate `[97]` is not the one of a freshly constructed oracle
either: the oracle built with scratch buffers filled with zero returns `true`
after an earlier call for `[98]`, the freshly constructed oracle with scratch
buffers filled with seven returns `false`. -/
theorem isPasswordAcceptable_error_leaves_earlier_plaintext :
    CheckPassword.construct sampleEngine sampleFile sampleScratch = .ok sampleOracle ∧
      (sampleOracle.isPasswordAcceptable sampleEngine []).1 = .error ⟨1⟩ ∧
      ((sampleOracle.afterCalls sampleEngine [[97]]).isPasswordAcceptable
          sampleEngine []).2.getDecryptedText ≠
        (sampleOracle.isPasswordAcceptable sampleEngine []).2.getDecryptedText ∧
      ((sampleOracle.afterCalls sampleEngine [[97]]).isPasswordAcceptable
          sampleEngine []).2.getDecryptedText ≠
        ((sampleOracle.afterCalls sampleEngine [[98]]).isPasswordAcceptable
          sampleEngine []).2.getDecryptedText ∧
      CheckPassword.construct sampleEngine longChecksumFile (filledScratch 0) =
        .ok (longChecksumOracle 0) ∧
      CheckPassword.construct sampleEngine longChecksumFile (filledScratch 7) =
        .ok (longChecksumOracle 7) ∧
      (((longChecksumOracle 0).afterCalls sampleEngine [[98]]).isPasswordAcceptable
          sampleEngine [97]).1 = .ok true ∧
      ((longChecksumOracle 7).isPasswordAcceptable sampleEngine [97]).1 = .ok false :=
  ⟨rfl, rfl, by decide, by decide, rfl, rfl, rfl, rfl⟩

/-! ## Part 9. The file loader -/

theorem sizeAdd_of_lt (a b : Nat) (h : a + b < sizeModulus) : sizeAdd a b = a + b :=
  Nat.mod_eq_of_lt h

theorem sizeSub_of_le (a b : Nat) (hb : b ≤ a) (ha : a < sizeModulus) : sizeSub a b = a - b := by
  unfold sizeSub
  rw [Nat.mod_eq_of_lt (show b < sizeModulus by omega)]
  rw [show a + (sizeModulus - b) = a - b + sizeModulus by omega, Nat.add_mod_right]
  exact Nat.mod_eq_of_lt (by omega)

/-- The loader on sizes whose sum does not wrap around: the format error for a
file that is not longer than the two fixed fields together, and otherwise the
three consecutive slices of the file. -/
theorem parseFile_of_no_wrap (file : List Nat) (initialValueSize shaCheckSumSize : Nat)
    (hsum : initialValueSize + shaCheckSumSize < sizeModulus)
    (hfile : file.length < sizeModulus) :
    (file.length ≤ initialValueSize + shaCheckSumSize →
        parseFile file initialValueSize shaCheckSumSize = .error .formatError) ∧
      (initialValueSize + shaCheckSumSize < file.length →
        parseFile file initialValueSize shaCheckSumSize =
          .ok { initialValue := file.take initialValueSize
                content := (file.drop initialValueSize).take
                  (file.length - initialValueSize - shaCheckSumSize)
                shaCheckSum := ((file.drop initialValueSize).drop
                  (file.length - initialValueSize - shaCheckSumSize)).take shaCheckSumSize
                initialValueSize := initialValueSize
                contentSize := file.length - initialValueSize - shaCheckSumSize
                shaCheckSumSize := shaCheckSumSize }) := by
  constructor
  · intro h
    simp [parseFile, sizeAdd_of_lt _ _ hsum, h]
  · intro h
    have h1 : sizeSub file.length initialValueSize = file.length - initialValueSize :=
      sizeSub_of_le _ _ (by omega) hfile
    have h2 : sizeSub (file.length - initialValueSize) shaCheckSumSize =
        file.length - initialValueSize - shaCheckSumSize :=
      sizeSub_of_le _ _ (by omega) (by omega)
    have r1 : readBytes file initialValueSize =
        .ok (file.take initialValueSize, file.drop initialValueSize) := by
      simp [readBytes]
      omega
    have r2 : readBytes (file.drop initialValueSize)
          (file.length - initialValueSize - shaCheckSumSize) =
        .ok ((file.drop initialValueSize).take (file.length - initialValueSize - shaCheckSumSize),
          (file.drop initialValueSize).drop (file.length - initialValueSize - shaCheckSumSize)) := by
      simp [readBytes]
    have r3 : readBytes ((file.drop initialValueSize).drop
          (file.length - initialValueSize - shaCheckSumSize)) shaCheckSumSize =
        .ok ((((file.drop initialValueSize).drop
            (file.length - initialValueSize - shaCheckSumSize)).take shaCheckSumSize),
          (((file.drop initialValueSize).drop
            (file.length - initialValueSize - shaCheckSumSize)).drop shaCheckSumSize)) := by
      simp [readBytes]
      omega
    simp only [parseFile, sizeAdd_of_lt _ _ hsum, if_neg (Nat.not_le.mpr h), h1, h2, r1, r2, r3]

/-- C7, the failing input: a file of 20 bytes parsed with `initialValueSize = 8`
and `shaCheckSumSize = 2 ^ 64 - 8`.  The file is not longer than the two sizes
together, but their `std::size_t` sum wraps around to `0`, the size check
passes and the loader fails later, in a read, not with the format error. -/
theorem parseFile_size_sum_wraps :
    (List.replicate 20 0).length ≤ 8 + (2 ^ 64 - 8) ∧
      sizeAdd 8 (2 ^ 64 - 8) = 0 ∧
      parseFile (List.replicate 20 0) 8 (2 ^ 64 - 8) = .error .readFailure :=
  ⟨by decide, by decide, rfl⟩

/-- C8: for byte strings `A`, `B`, `C` with `B` not empty whose total length is a
`std::size_t`, parsing the file `A ++ B ++ C` with `initialValueSize = |A|` and
`shaCheckSumSize = |C|` succeeds with the fields `A`, `B`, `C` and the sizes
`|A|`, `|B|`, `|C|`; the three fields are consecutive slices of the file and
their concatenation is the whole file. -/
theorem parseFile_slices (A B C : List Nat) (hB : B ≠ [])
    (hsize : (A ++ B ++ C).length < sizeModulus) :
    parseFile (A ++ B ++ C) A.length C.length =
        .ok { initialValue := A
              content := B
              shaCheckSum := C
              initialValueSize := A.length
              contentSize := B.length
              shaCheckSumSize := C.length } ∧
      ∃ parsed, parseFile (A ++ B ++ C) A.length C.length = .ok parsed ∧
        parsed.initialValue ++ parsed.content ++ parsed.shaCheckSum = A ++ B ++ C := by
  have hBlen : 0 < B.length := List.length_pos.mpr hB
  have hlen : (A ++ B ++ C).length = A.length + B.length + C.length := by
    simp [List.length_append, Nat.add_assoc]
  have hparse := (parseFile_of_no_wrap (A ++ B ++ C) A.length C.length (by omega) hsize).2
    (by omega)
  have e : parseFile (A ++ B ++ C) A.length C.length =
      .ok { initialValue := A
            content := B
            shaCheckSum := C
            initialValueSize := A.length
            contentSize := B.length
            shaCheckSumSize := C.length } := by
    rw [hparse, hlen]
    have hc : A.length + B.length + C.length - A.length - C.length = B.length := by omega
    rw [hc]
    simp [List.append_assoc]
  exact ⟨e, _, e, rfl⟩

/-- C8, witness: the file `[1, 2] ++ [3] ++ [4, 5, 6]`. -/
theorem parseFile_slices_witness :
    parseFile ([1, 2] ++ [3] ++ [4, 5, 6]) [1, 2].length [4, 5, 6].length =
        .ok { initialValue := [1, 2]
              content := [3]
              shaCheckSum := [4, 5, 6]
              initialValueSize := [1, 2].length
              contentSize := [3].length
              shaCheckSumSize := [4, 5, 6].length } ∧
      ∃ parsed, parseFile ([1, 2] ++ [3] ++ [4, 5, 6]) [1, 2].length [4, 5, 6].length =
          .ok parsed ∧
        parsed.initialValue ++ parsed.content ++ parsed.shaCheckSum = [1, 2] ++ [3] ++ [4, 5, 6] :=
  parseFile_slices [1, 2] [3] [4, 5, 6] (by decide) (by decide)

/-! ## Part 10. The enumerator: equality, the end position, one increment, construction -/

section EnumeratorPositions

variable {α : Type} {storage : Nat}

theorem iterate_increment_endState [Inhabited α] (range : List α) (k m : Nat) :
    CartesianPowerIterator.increment^[m] (endState storage range k) = endState storage range k := by
  induction m with
  | zero => rfl
  | succ m ih => rw [Function.iterate_succ_apply', ih, increment_endState]

/-- The positions met on the way from the begin iterator: the position that
stands for `n` before `a ^ k` increments, the end sentinel from then on. -/
theorem iterate_increment_ofPower_cases [Inhabited α] (range : List α) (k n : Nat) :
    (range ≠ [] ∧ n < range.length ^ k ∧
        CartesianPowerIterator.increment^[n] (CartesianPowerIterator.ofPower storage range k) =
          stateOf storage range k n) ∨
      CartesianPowerIterator.increment^[n] (CartesianPowerIterator.ofPower storage range k) =
        endState storage range k := by
  by_cases hne : range = []
  · subst hne
    right
    rw [ofPower_nil, iterate_increment_endState]
  · by_cases hn : n < range.length ^ k
    · exact Or.inl ⟨hne, hn, iterate_increment_ofPower range hne k n hn⟩
    · right
      obtain ⟨m, rfl⟩ : ∃ m, n = m + range.length ^ k := ⟨n - range.length ^ k, by omega⟩
      rw [Function.iterate_add_apply, iterate_increment_ofPower_last range hne k,
        iterate_increment_endState]

/-- C15: once the iterator that walks `CartesianPowerRange range k` (over any
storage of the alphabet) has reported the end of the sequence (its end flag is set after `n` increments), any number
`m` of further increments leaves it unchanged; it compares equal to the end
sentinel of the range and it holds no tuple; the end sentinel itself does not
change under increments either. -/
theorem increment_after_end [DecidableEq α] [Inhabited α] (range : List α) (k n m : Nat)
    (hend : (CartesianPowerIterator.increment^[n]
      (CartesianPowerIterator.ofPower storage range k)).endReached = true) :
    ∃ r, CartesianPowerRange storage range k = .ok r ∧
      CartesianPowerIterator.increment^[m] (CartesianPowerIterator.increment^[n] r.1) =
        CartesianPowerIterator.increment^[n] r.1 ∧
      (CartesianPowerIterator.increment^[m] (CartesianPowerIterator.increment^[n] r.1)).equal
        r.2 = true ∧
      (CartesianPowerIterator.increment^[m]
        (CartesianPowerIterator.increment^[n] r.1)).dereference = [] ∧
      CartesianPowerIterator.increment^[m] r.2 = r.2 := by
  refine ⟨_, CartesianPowerRange_eq range k, ?_⟩
  simp only []
  rcases iterate_increment_ofPower_cases range k n with ⟨-, -, hs⟩ | he
  · rw [hs] at hend
    simp [stateOf] at hend
  · rw [he, iterate_increment_endState]
    exact ⟨rfl, equal_self _, rfl, rfl⟩

/-- C15, witness: the range `[5, 6]` with power `2`, after `4` increments and `3`
more. -/
theorem increment_after_end_witness :
    ∃ r, CartesianPowerRange 0 ([5, 6] : List Nat) 2 = .ok r ∧
      CartesianPowerIterator.increment^[3] (CartesianPowerIterator.increment^[4] r.1) =
        CartesianPowerIterator.increment^[4] r.1 ∧
      (CartesianPowerIterator.increment^[3] (CartesianPowerIterator.increment^[4] r.1)).equal
        r.2 = true ∧
      (CartesianPowerIterator.increment^[3]
        (CartesianPowerIterator.increment^[4] r.1)).dereference = [] ∧
      CartesianPowerIterator.increment^[3] r.2 = r.2 :=
  increment_after_end [5, 6] 2 4 3 (by decide)

theorem incrementLoop_all_last [Inhabited α] (range : List α) (ds : List Nat)
    (hlast : ∀ d ∈ ds, d + 1 = range.length) :
    incrementLoop range ds (ds.map (deref range)) =
      (List.replicate ds.length 0, List.replicate ds.length (deref range 0), true) := by
  induction ds with
  | nil => rfl
  | cons d ds ih =>
    have hd : d + 1 = range.length := hlast d (List.mem_cons_self _ _)
    have ih' := ih (fun x hx => hlast x (List.mem_cons_of_mem _ hx))
    simp [incrementLoop, hd, ih', List.replicate_succ]

theorem incrementLoop_split [Inhabited α] (range : List α) (lasts : List Nat) (d : Nat)
    (rest : List Nat) (hlast : ∀ x ∈ lasts, x + 1 = range.length) (hd : d + 1 ≠ range.length) :
    incrementLoop range (lasts ++ d :: rest) ((lasts ++ d :: rest).map (deref range)) =
      (List.replicate lasts.length 0 ++ (d + 1) :: rest,
        List.replicate lasts.length (deref range 0) ++ deref range (d + 1) ::
          rest.map (deref range), false) := by
  induction lasts with
  | nil => simp [incrementLoop, hd]
  | cons x lasts ih =>
    have hx : x + 1 = range.length := hlast x (List.mem_cons_self _ _)
    have ih' := ih (fun y hy => hlast y (List.mem_cons_of_mem _ hy))
    simp only [List.map_append, List.map_cons] at ih'
    simp [incrementLoop, hx, ih', List.replicate_succ]

theorem exists_first_not_last (a : Nat) (ds : List Nat) (h : ¬ ∀ d ∈ ds, d + 1 = a) :
    ∃ lasts d rest, ds = lasts ++ d :: rest ∧ (∀ x ∈ lasts, x + 1 = a) ∧ d + 1 ≠ a := by
  induction ds with
  | nil => exact absurd (fun d hd => absurd hd (List.not_mem_nil d)) h
  | cons x ds ih =>
    by_cases hx : x + 1 = a
    · have hrest : ¬ ∀ d ∈ ds, d + 1 = a := by
        intro hall
        apply h
        intro d hd
        rcases List.mem_cons.mp hd with rfl | hd
        · exact hx
        · exact hall d hd
      obtain ⟨lasts, d, rest, hds, hl, hd⟩ := ih hrest
      refine ⟨x :: lasts, d, rest, by rw [hds]; rfl, ?_, hd⟩
      intro y hy
      rcases List.mem_cons.mp hy with rfl | hy
      · exact hx
      · exact hl y hy
    · exact ⟨[], x, ds, rfl, fun y hy => absurd hy (List.not_mem_nil y), hx⟩

/-- C18: for a position that is not at the end (every index inside the alphabet,
which is therefore not empty unless the power is zero, and the values the
symbols at the indices), `increment`
yields the end position (every index past the end, no values, end flag set) iff
every index was at the last symbol of the alphabet.  Otherwise it yields a
position that is not at the end, in which the rightmost index that was not at
the last symbol is advanced by one, every index to its right is reset to the
first symbol, every index to its left is unchanged, and the values are the
symbols at the new indices. -/
theorem increment_cases [Inhabited α] (it : CartesianPowerIterator α)
    (hnot : it.endReached = false)
    (hvalid : ∀ i ∈ it.iterators, i < it.range.length)
    (hvalues : it.values = it.iterators.map (deref it.range)) :
    (it.increment = endState it.storage it.range it.iterators.length ↔
        ∀ i ∈ it.iterators, i + 1 = it.range.length) ∧
      ((¬ ∀ i ∈ it.iterators, i + 1 = it.range.length) →
        ∃ left d right, it.iterators = left ++ d :: right ∧ d + 1 < it.range.length ∧
          (∀ i ∈ right, i + 1 = it.range.length) ∧
          it.increment =
            { iterators := left ++ (d + 1) :: List.replicate right.length 0
              values := (left ++ (d + 1) :: List.replicate right.length 0).map (deref it.range)
              range := it.range
              endReached := false
              storage := it.storage }) := by
  have hnotall : (¬ ∀ i ∈ it.iterators, i + 1 = it.range.length) →
      ∃ left d right, it.iterators = left ++ d :: right ∧ d + 1 < it.range.length ∧
        (∀ i ∈ right, i + 1 = it.range.length) ∧
        it.increment =
          { iterators := left ++ (d + 1) :: List.replicate right.length 0
            values := (left ++ (d + 1) :: List.replicate right.length 0).map (deref it.range)
            range := it.range
            endReached := false
            storage := it.storage } := by
    intro h
    have hrev : ¬ ∀ d ∈ it.iterators.reverse, d + 1 = it.range.length := by
      intro hall
      exact h (fun i hi => hall i (List.mem_reverse.mpr hi))
    obtain ⟨lasts, d, rest, hds, hl, hd⟩ := exists_first_not_last _ _ hrev
    have hits : it.iterators = rest.reverse ++ d :: lasts.reverse := by
      have := congrArg List.reverse hds
      simpa using this
    have hdlt : d + 1 < it.range.length := by
      have := hvalid d (by rw [hits]; simp)
      omega
    refine ⟨rest.reverse, d, lasts.reverse, hits, hdlt, ?_, ?_⟩
    · intro i hi
      exact hl i (List.mem_reverse.mp hi)
    · have hloop := incrementLoop_split it.range lasts d rest hl hd
      have hvrev : it.values.reverse = (it.iterators.reverse).map (deref it.range) := by
        rw [hvalues, List.map_reverse]
      unfold CartesianPowerIterator.increment
      simp only [hnot, Bool.false_eq_true, if_false]
      rw [hvrev, hds, hloop]
      simp [List.map_reverse]
  refine ⟨⟨?_, ?_⟩, hnotall⟩
  · intro hend
    by_contra h
    obtain ⟨left, d, right, -, -, -, hinc⟩ := hnotall h
    rw [hinc] at hend
    have := congrArg CartesianPowerIterator.endReached hend
    simp [endState] at this
  · intro hall
    have hrev : ∀ d ∈ it.iterators.reverse, d + 1 = it.range.length :=
      fun d hd => hall d (List.mem_reverse.mp hd)
    have hloop := incrementLoop_all_last it.range it.iterators.reverse hrev
    have hvrev : it.values.reverse = (it.iterators.reverse).map (deref it.range) := by
      rw [hvalues, List.map_reverse]
    unfold CartesianPowerIterator.increment
    simp only [hnot, Bool.false_eq_true, if_false]
    rw [hvrev, hloop]
    simp [endState]

/-- C18, witness: the position `[0, 1]` over the alphabet `[5, 6]`. -/
theorem increment_cases_witness :
    ((⟨[0, 1], [5, 6], [5, 6], false, 0⟩ : CartesianPowerIterator Nat).increment =
          endState 0 [5, 6] [0, 1].length ↔
        ∀ i ∈ ([0, 1] : List Nat), i + 1 = [5, 6].length) ∧
      ((¬ ∀ i ∈ ([0, 1] : List Nat), i + 1 = [5, 6].length) →
        ∃ left d right, ([0, 1] : List Nat) = left ++ d :: right ∧ d + 1 < [5, 6].length ∧
          (∀ i ∈ right, i + 1 = [5, 6].length) ∧
          (⟨[0, 1], [5, 6], [5, 6], false, 0⟩ : CartesianPowerIterator Nat).increment =
            { iterators := left ++ (d + 1) :: List.replicate right.length 0
              values := (left ++ (d + 1) :: List.replicate right.length 0).map (deref [5, 6])
              range := [5, 6]
              endReached := false
              storage := 0 }) :=
  increment_cases ⟨[0, 1], [5, 6], [5, 6], false, 0⟩ rfl (by decide) (by decide)

/-- C19: the constructor from a vector of positions throws `std::logic_error`
iff the alphabet is not empty and the vector holds at least one past-the-end
marker and at least one position that is not past the end.  When the alphabet
is empty, the vector is empty or every entry is past the end, it yields the end
position of the same power; and for a non-empty vector over a non-empty alphabet
with no entry past the end it yields a position that is not at the end, whose
values are the symbols at the given positions. -/
theorem ofIterators_cases [Inhabited α] (range : List α) (iterators : List Nat) :
    ((∃ e, CartesianPowerIterator.ofIterators storage range iterators = .error e) ↔
        range ≠ [] ∧ (∃ i ∈ iterators, i = range.length) ∧
          (∃ i ∈ iterators, i ≠ range.length)) ∧
      ((range = [] ∨ iterators = [] ∨ ∀ i ∈ iterators, i = range.length) →
        CartesianPowerIterator.ofIterators storage range iterators =
          .ok { iterators := List.replicate iterators.length range.length
                values := []
                range := range
                endReached := true
                storage := storage }) ∧
      (range ≠ [] → iterators ≠ [] → (∀ i ∈ iterators, i ≠ range.length) →
        CartesianPowerIterator.ofIterators storage range iterators =
          .ok { iterators := iterators
                values := iterators.map (deref range)
                range := range
                endReached := false
                storage := storage }) := by
  have hall : (iterators.all (fun it => it == range.length) = true) ↔
      ∀ i ∈ iterators, i = range.length := by simp
  have hany : (iterators.any (fun it => it == range.length) = true) ↔
      ∃ i ∈ iterators, i = range.length := by simp
  have hfirst : (range.isEmpty || iterators.isEmpty) = true ↔ (range = [] ∨ iterators = []) := by
    simp [List.isEmpty_iff]
  refine ⟨?_, ?_, ?_⟩
  · unfold CartesianPowerIterator.ofIterators
    by_cases h1 : (range.isEmpty || iterators.isEmpty) = true
    · rw [if_pos h1]
      constructor
      · rintro ⟨e, he⟩
        cases he
      · rintro ⟨hr, ⟨i, hi, -⟩, -⟩
        rcases hfirst.mp h1 with h | h
        · exact absurd h hr
        · rw [h] at hi
          exact absurd hi (List.not_mem_nil i)
    · rw [if_neg h1]
      by_cases h2 : iterators.all (fun it => it == range.length) = true
      · rw [if_pos h2]
        constructor
        · rintro ⟨e, he⟩
          cases he
        · rintro ⟨-, -, ⟨i, hi, hne⟩⟩
          exact absurd (hall.mp h2 i hi) hne
      · rw [if_neg h2]
        by_cases h3 : iterators.any (fun it => it == range.length) = true
        · rw [if_pos h3]
          constructor
          · intro _
            refine ⟨fun hr => h1 (hfirst.mpr (Or.inl hr)), hany.mp h3, ?_⟩
            by_contra hno
            apply h2
            rw [hall]
            intro i hi
            by_contra hne
            exact hno ⟨i, hi, hne⟩
          · intro _
            exact ⟨_, rfl⟩
        · rw [if_neg h3]
          constructor
          · rintro ⟨e, he⟩
            cases he
          · rintro ⟨-, hex, -⟩
            exact absurd (hany.mpr hex) h3
  · intro h
    unfold CartesianPowerIterator.ofIterators
    by_cases h1 : (range.isEmpty || iterators.isEmpty) = true
    · rw [if_pos h1]
    · rw [if_neg h1]
      have hallend : ∀ i ∈ iterators, i = range.length := by
        rcases h with h | h | h
        · exact absurd (hfirst.mpr (Or.inl h)) h1
        · exact absurd (hfirst.mpr (Or.inr h)) h1
        · exact h
      rw [if_pos (hall.mpr hallend)]
      have : iterators = List.replicate iterators.length range.length :=
        List.eq_replicate_iff.mpr ⟨rfl, hallend⟩
      rw [← this]
  · intro hr hi hno
    unfold CartesianPowerIterator.ofIterators
    have h1 : ¬ (range.isEmpty || iterators.isEmpty) = true := by
      rw [hfirst]
      rintro (h | h)
      · exact hr h
      · exact hi h
    have h2 : ¬ iterators.all (fun it => it == range.length) = true := by
      rw [hall]
      intro h
      obtain ⟨i, hmem⟩ := List.exists_mem_of_ne_nil iterators hi
      exact hno i hmem (h i hmem)
    have h3 : ¬ iterators.any (fun it => it == range.length) = true := by
      rw [hany]
      rintro ⟨i, hmem, he⟩
      exact hno i hmem he
    rw [if_neg h1, if_neg h2, if_neg h3]

/-- C19, witness: the vector `[0, 2]` over the alphabet `[5, 6]`, whose
past-the-end marker is `2`. -/
theorem ofIterators_cases_witness :
    ((∃ e, CartesianPowerIterator.ofIterators 0 ([5, 6] : List Nat) [0, 2] = .error e) ↔
        ([5, 6] : List Nat) ≠ [] ∧ (∃ i ∈ ([0, 2] : List Nat), i = [5, 6].length) ∧
          (∃ i ∈ ([0, 2] : List Nat), i ≠ [5, 6].length)) ∧
      ((([5, 6] : List Nat) = [] ∨ ([0, 2] : List Nat) = [] ∨
          ∀ i ∈ ([0, 2] : List Nat), i = [5, 6].length) →
        CartesianPowerIterator.ofIterators 0 ([5, 6] : List Nat) [0, 2] =
          .ok { iterators := List.replicate [0, 2].length [5, 6].length
                values := []
                range := [5, 6]
                endReached := true
                storage := 0 }) ∧
      (([5, 6] : List Nat) ≠ [] → ([0, 2] : List Nat) ≠ [] →
          (∀ i ∈ ([0, 2] : List Nat), i ≠ [5, 6].length) →
        CartesianPowerIterator.ofIterators 0 ([5, 6] : List Nat) [0, 2] =
          .ok { iterators := [0, 2]
                values := ([0, 2] : List Nat).map (deref [5, 6])
                range := [5, 6]
                endReached := false
                storage := 0 }) :=
  ofIterators_cases [5, 6] [0, 2]

end EnumeratorPositions

/-! ## Part 11. The oracle: errors and scratch buffers -/

/-- The exception a call throws carries the non-zero code that the engine
reported. -/
theorem isPasswordAcceptable_error_code (engine : CipherEngine) (self : CheckPassword)
    (password : List Nat) (e : GcryException)
    (he : (self.isPasswordAcceptable engine password).1 = .error e) : e.code ≠ 0 := by
  by_cases h1 : engine.setkeyError
      (List.take 24 (List.take 16 (engine.md5 password) ++ List.take 8 (engine.md5 password))) = 0
  · by_cases h2 : engine.setivError (List.take self.initialValueSize self.initialValue) = 0
    · by_cases h3 : engine.decryptError
          ⟨List.take 24 (List.take 16 (engine.md5 password) ++ List.take 8 (engine.md5 password)),
            List.take self.initialValueSize self.initialValue⟩
          (List.take self.cipherTextSize self.cipherText) = 0
      · simp [CheckPassword.isPasswordAcceptable, md5CheckSumSize, tripleDESKeySize, h1, h2, h3,
          processGcryError_zero] at he
      · simp [CheckPassword.isPasswordAcceptable, md5CheckSumSize, tripleDESKeySize, h1, h2,
          processGcryError_zero, processGcryError_of_ne_zero _ h3] at he
        rw [← he]
        exact h3
    · simp [CheckPassword.isPasswordAcceptable, md5CheckSumSize, tripleDESKeySize, h1,
        processGcryError_zero, processGcryError_of_ne_zero _ h2] at he
      rw [← he]
      exact h2
  · simp [CheckPassword.isPasswordAcceptable, md5CheckSumSize, tripleDESKeySize,
      processGcryError_of_ne_zero _ h1] at he
    rw [← he]
    exact h1

/-- C13: a call of `isPasswordAcceptable` throws `GcryException`, and returns no
boolean, iff `gcry_cipher_setkey`, `gcry_cipher_setiv` or `gcry_cipher_decrypt`
reports a non-zero error code for the key, the initial value and the ciphertext
of that call; it returns `true` or `false` iff all three report zero.  The
exception carries a non-zero code. -/
theorem isPasswordAcceptable_throws_iff (engine : CipherEngine) (self : CheckPassword)
    (password : List Nat) :
    ((∃ e, (self.isPasswordAcceptable engine password).1 = .error e) ↔
        (engine.setkeyError (handleFor engine self password).key ≠ 0 ∨
          engine.setivError (handleFor engine self password).iv ≠ 0 ∨
          engine.decryptError (handleFor engine self password)
            (self.cipherText.take self.cipherTextSize) ≠ 0)) ∧
      ((∃ b, (self.isPasswordAcceptable engine password).1 = .ok b) ↔
        (engine.setkeyError (handleFor engine self password).key = 0 ∧
          engine.setivError (handleFor engine self password).iv = 0 ∧
          engine.decryptError (handleFor engine self password)
            (self.cipherText.take self.cipherTextSize) = 0)) ∧
      (∀ e, (self.isPasswordAcceptable engine password).1 = .error e → e.code ≠ 0) := by
  by_cases hacc : engineAccepts engine self password
  · have hres := (isPasswordAcceptable_of_engineAccepts engine self password hacc).1
    refine ⟨⟨?_, ?_⟩, ⟨fun _ => hacc, fun _ => ⟨_, hres⟩⟩, ?_⟩
    · rintro ⟨e, he⟩
      rw [hres] at he
      cases he
    · rintro (h | h | h)
      · exact absurd hacc.1 h
      · exact absurd hacc.2.1 h
      · exact absurd hacc.2.2 h
    · intro e he
      rw [hres] at he
      cases he
  · obtain ⟨⟨e, he⟩, -⟩ := isPasswordAcceptable_of_not_engineAccepts engine self password hacc
    refine ⟨⟨?_, fun _ => ⟨e, he⟩⟩, ⟨?_, fun h => absurd h hacc⟩, ?_⟩
    · intro _
      by_contra hno
      apply hacc
      refine ⟨?_, ?_, ?_⟩
      · by_contra h
        exact hno (Or.inl h)
      · by_contra h
        exact hno (Or.inr (Or.inl h))
      · by_contra h
        exact hno (Or.inr (Or.inr h))
    · rintro ⟨b, hb⟩
      rw [he] at hb
      cases hb
    · intro e' he'
      exact isPasswordAcceptable_error_code engine self password e' he'

/-- C13, witness: the oracle `sampleOracle` and the candidate `[]`, whose key
`sampleEngine` refuses. -/
theorem isPasswordAcceptable_throws_iff_witness :
    ((∃ e, (sampleOracle.isPasswordAcceptable sampleEngine []).1 = .error e) ↔
        (sampleEngine.setkeyError (handleFor sampleEngine sampleOracle []).key ≠ 0 ∨
          sampleEngine.setivError (handleFor sampleEngine sampleOracle []).iv ≠ 0 ∨
          sampleEngine.decryptError (handleFor sampleEngine sampleOracle [])
            (sampleOracle.cipherText.take sampleOracle.cipherTextSize) ≠ 0)) ∧
      ((∃ b, (sampleOracle.isPasswordAcceptable sampleEngine []).1 = .ok b) ↔
        (sampleEngine.setkeyError (handleFor sampleEngine sampleOracle []).key = 0 ∧
          sampleEngine.setivError (handleFor sampleEngine sampleOracle []).iv = 0 ∧
          sampleEngine.decryptError (handleFor sampleEngine sampleOracle [])
            (sampleOracle.cipherText.take sampleOracle.cipherTextSize) = 0)) ∧
      (∀ e, (sampleOracle.isPasswordAcceptable sampleEngine []).1 = .error e → e.code ≠ 0) :=
  isPasswordAcceptable_throws_iff sampleEngine sampleOracle []

section EnumeratorTuples

variable {α : Type} {storage : Nat}

theorem ofDigits_odometer (a k n : Nat) (hn : n < a ^ k) : ofDigits a (odometer a k n) = n := by
  induction k generalizing n with
  | zero =>
    have : n = 0 := by simpa using hn
    subst this
    rfl
  | succ k ih =>
    have ha : 0 < a := by
      rcases Nat.eq_zero_or_pos a with h | h
      · subst h
        simp at hn
      · exact h
    have hq : n / a < a ^ k := by
      rw [Nat.div_lt_iff_lt_mul ha, ← pow_succ]
      exact hn
    simp only [odometer, ofDigits, ih _ hq]
    exact Nat.mod_add_div n a

theorem odometer_ofDigits (a : Nat) (digits : List Nat) (h : ∀ d ∈ digits, d < a) :
    odometer a digits.length (ofDigits a digits) = digits := by
  induction digits with
  | nil => rfl
  | cons d digits ih =>
    have hd : d < a := h d (List.mem_cons_self _ _)
    have ih' := ih (fun x hx => h x (List.mem_cons_of_mem _ hx))
    have h1 : (d + a * ofDigits a digits) % a = d := by
      rw [Nat.add_mul_mod_self_left, Nat.mod_eq_of_lt hd]
    have h2 : (d + a * ofDigits a digits) / a = ofDigits a digits := by
      rw [Nat.add_mul_div_left _ _ (by omega), Nat.div_eq_of_lt hd, Nat.zero_add]
    simp only [List.length_cons, odometer, ofDigits, h1, h2, ih']

theorem ofDigits_lt (a : Nat) (digits : List Nat) (h : ∀ d ∈ digits, d < a) :
    ofDigits a digits < a ^ digits.length := by
  induction digits with
  | nil => simp [ofDigits]
  | cons d digits ih =>
    have hd : d < a := h d (List.mem_cons_self _ _)
    have ih' := ih (fun x hx => h x (List.mem_cons_of_mem _ hx))
    have hstep : d + a * ofDigits a digits < a * (ofDigits a digits + 1) := by
      rw [Nat.mul_add, Nat.mul_one]
      omega
    have hle : a * (ofDigits a digits + 1) ≤ a * a ^ digits.length :=
      Nat.mul_le_mul_left a ih'
    simp only [List.length_cons, ofDigits, pow_succ']
    omega

theorem deref_injOn [Inhabited α] (range : List α) (hnodup : range.Nodup) (i j : Nat)
    (hi : i < range.length) (hj : j < range.length) (h : deref range i = deref range j) :
    i = j := by
  rw [deref_eq_getElem range i hi, deref_eq_getElem range j hj] at h
  exact (hnodup.getElem_inj_iff).mp h

theorem map_deref_injOn [Inhabited α] (range : List α) (hnodup : range.Nodup)
    (l₁ l₂ : List Nat) (h₁ : ∀ d ∈ l₁, d < range.length) (h₂ : ∀ d ∈ l₂, d < range.length)
    (h : l₁.map (deref range) = l₂.map (deref range)) : l₁ = l₂ := by
  induction l₁ generalizing l₂ with
  | nil =>
    cases l₂ with
    | nil => rfl
    | cons _ _ => simp at h
  | cons x l₁ ih =>
    cases l₂ with
    | nil => simp at h
    | cons y l₂ =>
      simp only [List.map_cons, List.cons.injEq] at h
      have hxy := deref_injOn range hnodup x y (h₁ x (List.mem_cons_self _ _))
        (h₂ y (List.mem_cons_self _ _)) h.1
      have htl := ih l₂ (fun d hd => h₁ d (List.mem_cons_of_mem _ hd))
        (fun d hd => h₂ d (List.mem_cons_of_mem _ hd)) h.2
      rw [hxy, htl]

/-- Over an alphabet of pairwise distinct symbols, different numbers below
`a ^ k` stand for different tuples. -/
theorem stateOf_dereference_injOn [Inhabited α] (range : List α) (hnodup : range.Nodup)
    (ha : 0 < range.length) (k n m : Nat) (hn : n < range.length ^ k)
    (hm : m < range.length ^ k)
    (h : (stateOf storage range k n).dereference =
      (stateOf storage range k m).dereference) : n = m := by
  rw [stateOf_dereference, stateOf_dereference] at h
  have hdigits := map_deref_injOn range hnodup _ _
    (fun d hd => odometer_lt _ _ _ ha d (List.mem_reverse.mp hd))
    (fun d hd => odometer_lt _ _ _ ha d (List.mem_reverse.mp hd)) h
  have hod : odometer range.length k n = odometer range.length k m := by
    have := congrArg List.reverse hdigits
    simpa using this
  rw [← ofDigits_odometer _ k n hn, ← ofDigits_odometer _ k m hm, hod]

theorem tuples_nodup [Inhabited α] (range : List α) (hnodup : range.Nodup)
    (ha : 0 < range.length) (k : Nat) :
    ((List.range (range.length ^ k)).map
      (fun n => (stateOf storage range k n).dereference)).Nodup := by
  apply List.Nodup.map_on _ (List.nodup_range _)
  intro n hn m hm h
  exact stateOf_dereference_injOn range hnodup ha k n m (List.mem_range.mp hn)
    (List.mem_range.mp hm) h

theorem exists_positions [Inhabited α] (range : List α) (tuple : List α)
    (h : ∀ x ∈ tuple, x ∈ range) :
    ∃ positions : List Nat, positions.length = tuple.length ∧
      (∀ d ∈ positions, d < range.length) ∧ positions.map (deref range) = tuple := by
  induction tuple with
  | nil => exact ⟨[], rfl, fun d hd => absurd hd (List.not_mem_nil d), rfl⟩
  | cons x tuple ih =>
    obtain ⟨positions, hlen, hlt, hmap⟩ := ih (fun y hy => h y (List.mem_cons_of_mem _ hy))
    obtain ⟨i, hi, hx⟩ := List.getElem_of_mem (h x (List.mem_cons_self _ _))
    refine ⟨i :: positions, by simp [hlen], ?_, ?_⟩
    · intro d hd
      rcases List.mem_cons.mp hd with rfl | hd
      · exact hi
      · exact hlt d hd
    · simp [hmap, deref_eq_getElem range i hi, hx]

/-- The tuples that stand for the numbers below `a ^ k` are exactly the lists
of `k` alphabet symbols. -/
theorem mem_tuples_iff [Inhabited α] (range : List α) (ha : 0 < range.length) (k : Nat)
    (tuple : List α) :
    tuple ∈ (List.range (range.length ^ k)).map
      (fun n => (stateOf storage range k n).dereference) ↔
      tuple.length = k ∧ ∀ x ∈ tuple, x ∈ range := by
  constructor
  · intro h
    obtain ⟨n, -, rfl⟩ := List.mem_map.mp h
    rw [stateOf_dereference]
    refine ⟨by simp [odometer_length], ?_⟩
    intro x hx
    obtain ⟨d, hd, rfl⟩ := List.mem_map.mp hx
    exact deref_mem range d (odometer_lt _ _ _ ha d (List.mem_reverse.mp hd))
  · rintro ⟨hlen, hmem⟩
    obtain ⟨positions, hplen, hlt, hmap⟩ := exists_positions range tuple hmem
    have hrev : ∀ d ∈ positions.reverse, d < range.length :=
      fun d hd => hlt d (List.mem_reverse.mp hd)
    have hk : positions.reverse.length = k := by rw [List.length_reverse, hplen, hlen]
    have hbound := ofDigits_lt range.length positions.reverse hrev
    have hod := odometer_ofDigits range.length positions.reverse hrev
    rw [hk] at hbound hod
    refine List.mem_map.mpr ⟨ofDigits range.length positions.reverse,
      List.mem_range.mpr hbound, ?_⟩
    rw [stateOf_dereference, hod, List.reverse_reverse, hmap]

/-- C11 (as amended): for every alphabet whose symbols are pairwise distinct and
every power `k` (every `k ≥ 1` in particular), the tuples that the walk over
`CartesianPowerRange` reads are pairwise distinct: no tuple is read twice. -/
theorem CartesianPowerRange_tuples_distinct [DecidableEq α] [Inhabited α]
    (range : List α) (k extra : Nat) (hnodup : range.Nodup) :
    ∃ r, CartesianPowerRange storage range k = .ok r ∧
      ∃ tuples, walk (range.length ^ k + 1 + extra) r.1 r.2 = some tuples ∧ tuples.Nodup := by
  refine ⟨_, CartesianPowerRange_eq range k, ?_⟩
  by_cases hne : range = []
  · subst hne
    exact ⟨[], walk_nil_alphabet k _ (by omega), List.nodup_nil⟩
  · by_cases hk : k = 0
    · subst hk
      exact ⟨[], walk_power_zero range _ (by omega), List.nodup_nil⟩
    · exact ⟨_, walk_CartesianPower range hne k (by omega) extra,
        tuples_nodup range hnodup (List.length_pos.mpr hne) k⟩

/-- C11, witness: the alphabet `[5, 6, 7]` with power `2`. -/
theorem CartesianPowerRange_tuples_distinct_witness :
    ∃ r, CartesianPowerRange 0 ([5, 6, 7] : List Nat) 2 = .ok r ∧
      ∃ tuples, walk ([5, 6, 7].length ^ 2 + 1 + 0) r.1 r.2 = some tuples ∧ tuples.Nodup :=
  CartesianPowerRange_tuples_distinct [5, 6, 7] 2 0 (by decide)

/-- C11, counterexample: over the alphabet `[5, 5]`, in which the symbol `5`
occurs twice, the walk with power `1` reads the tuple `[5]` twice: whenever
the walk ends, its tuples are not pairwise distinct. -/
theorem CartesianPowerRange_duplicate_symbol_repeats :
    ¬ ∃ r tuples fuel, CartesianPowerRange 0 ([5, 5] : List Nat) 1 = .ok r ∧
        walk fuel r.1 r.2 = some tuples ∧ tuples.Nodup := by
  rintro ⟨r, tuples, fuel, hr, hw, hnd⟩
  rw [CartesianPowerRange_eq] at hr
  cases hr
  simp only [] at hw
  by_cases hfuel : fuel < 3
  · have hnone : walk fuel (CartesianPowerIterator.ofPower 0 ([5, 5] : List Nat) 1)
        (endState 0 [5, 5] 1) = none := by
      interval_cases fuel <;> rfl
    rw [hnone] at hw
    cases hw
  · obtain ⟨extra, rfl⟩ : ∃ extra, fuel = [5, 5].length ^ 1 + 1 + extra :=
      ⟨fuel - 3, by simp; omega⟩
    rw [walk_CartesianPower ([5, 5] : List Nat) (by decide) 1 (by decide) extra] at hw
    cases hw
    revert hnd
    decide

end EnumeratorTuples

/-! ## Part 13. The search of `main` -/

theorem searchLoop_eq_runTasks (engine : CipherEngine) (printDecryptedText : Bool)
    (thread : Nat → Nat) (fuel : Nat) (current last : CartesianPowerIterator Nat)
    (taskIndex : Nat) (state : SearchState) (tuples : List (List Nat))
    (hwalk : walk fuel current last = some tuples) :
    searchLoop engine printDecryptedText thread fuel current last taskIndex state =
      some (runTasks engine printDecryptedText thread taskIndex state tuples) := by
  induction fuel generalizing current taskIndex state tuples with
  | zero => simp [walk] at hwalk
  | succ fuel ih =>
    by_cases heq : current.equal last = true
    · simp only [walk, heq, if_true, Option.some.injEq] at hwalk
      subst hwalk
      simp [searchLoop, heq, runTasks]
    · simp only [walk, heq, Bool.false_eq_true, if_false, Option.map_eq_some'] at hwalk
      obtain ⟨rest, hrest, rfl⟩ := hwalk
      simp only [searchLoop, heq, Bool.false_eq_true, if_false, runTasks]
      exact ih _ _ _ _ hrest

theorem acceptedBy_iff (engine : CipherEngine) (self : CheckPassword) (password : List Nat) :
    acceptedBy engine self password = true ↔
      (self.isPasswordAcceptable engine password).1 = .ok true := by
  unfold acceptedBy
  cases h : (self.isPasswordAcceptable engine password).1 with
  | error e => simp
  | ok b => simp

theorem faultedBy_iff (engine : CipherEngine) (self : CheckPassword) (password : List Nat) :
    faultedBy engine self password = true ↔
      ∃ e, (self.isPasswordAcceptable engine password).1 = .error e := by
  unfold faultedBy
  cases h : (self.isPasswordAcceptable engine password).1 with
  | error e => simp
  | ok b => simp

/-- One task, for a context whose checksum field has the length of the digest:
the oracles stay on the context, the password is recorded as evaluated, it is
reported iff the context accepts it, and a warning is written iff the call
throws. -/
theorem searchTask_step (engine : CipherEngine) (printDecryptedText : Bool)
    (base : CheckPassword) (maxThreads : Nat) (state : SearchState) (threadNum : Nat)
    (password : List Nat) (hpool : poolFor base maxThreads state)
    (hthread : threadNum < maxThreads)
    (hsize : ∀ text, (engine.sha256 text).length = base.sha256CheckSumSize) :
    poolFor base maxThreads (searchTask engine printDecryptedText state threadNum password) ∧
      (searchTask engine printDecryptedText state threadNum password).evaluated =
        state.evaluated ++ [password] ∧
      (searchTask engine printDecryptedText state threadNum password).output.map
          Report.password =
        state.output.map Report.password ++ [password].filter (acceptedBy engine base) ∧
      (searchTask engine printDecryptedText state threadNum password).warnings =
        state.warnings ++ [password].filter (faultedBy engine base) := by
  obtain ⟨hlen, hctx⟩ := hpool
  have hlt : threadNum < state.ciphersForMultithread.length := by omega
  have hget : state.ciphersForMultithread[threadNum]? =
      some (state.ciphersForMultithread[threadNum]) := List.getElem?_eq_getElem hlt
  have hsame : sameContext (state.ciphersForMultithread[threadNum]) base :=
    hctx _ (List.getElem_mem hlt)
  have hres := isPasswordAcceptable_result_congr engine hsame password
    (fun text => by rw [hsame.2.1]; exact hsize text)
  have hnew : sameContext
      ((state.ciphersForMultithread[threadNum]).isPasswordAcceptable engine password).2 base :=
    sameContext_trans (sameContext_symm (sameContext_isPasswordAcceptable engine _ password)) hsame
  have hpool' : ∀ c ∈ state.ciphersForMultithread.set threadNum
      ((state.ciphersForMultithread[threadNum]).isPasswordAcceptable engine password).2,
      sameContext c base := by
    intro c hc
    rcases List.mem_or_eq_of_mem_set hc with h | h
    · exact hctx c h
    · rw [h]
      exact hnew
  unfold searchTask poolFor
  simp only [hget]
  cases hb : (base.isPasswordAcceptable engine password).1 with
  | error e =>
    rw [hb] at hres
    simp only [hres]
    refine ⟨⟨by simp [hlen], hpool'⟩, by simp, ?_, ?_⟩
    · simp [List.filter, acceptedBy, hb]
    · simp [List.filter, faultedBy, hb]
  | ok b =>
    rw [hb] at hres
    simp only [hres]
    cases b with
    | true =>
      simp only [if_true]
      refine ⟨⟨by simp [hlen], hpool'⟩, by simp, ?_, ?_⟩
      · simp [List.filter, acceptedBy, hb]
      · simp [List.filter, faultedBy, hb]
    | false =>
      simp only [Bool.false_eq_true, if_false]
      refine ⟨⟨by simp [hlen], hpool'⟩, by simp, ?_, ?_⟩
      · simp [List.filter, acceptedBy, hb]
      · simp [List.filter, faultedBy, hb]

/-- All tasks: every password is evaluated, in order; the reported passwords
are those the context accepts, the warnings those for which the call throws. -/
theorem runTasks_spec (engine : CipherEngine) (printDecryptedText : Bool)
    (thread : Nat → Nat) (base : CheckPassword) (maxThreads : Nat)
    (hthread : ∀ i, thread i < maxThreads)
    (hsize : ∀ text, (engine.sha256 text).length = base.sha256CheckSumSize)
    (passwords : List (List Nat)) (taskIndex : Nat)
    (state : SearchState) (hpool : poolFor base maxThreads state) :
    poolFor base maxThreads
        (runTasks engine printDecryptedText thread taskIndex state passwords) ∧
      (runTasks engine printDecryptedText thread taskIndex state passwords).evaluated =
        state.evaluated ++ passwords ∧
      (runTasks engine printDecryptedText thread taskIndex state passwords).output.map
          Report.password =
        state.output.map Report.password ++ passwords.filter (acceptedBy engine base) ∧
      (runTasks engine printDecryptedText thread taskIndex state passwords).warnings =
        state.warnings ++ passwords.filter (faultedBy engine base) := by
  induction passwords generalizing taskIndex state with
  | nil => simp [runTasks, hpool]
  | cons password passwords ih =>
    obtain ⟨h1, h2, h3, h4⟩ := searchTask_step engine printDecryptedText base maxThreads state
      (thread taskIndex) password hpool (hthread taskIndex) hsize
    obtain ⟨i1, i2, i3, i4⟩ := ih (taskIndex + 1) _ h1
    simp only [runTasks]
    refine ⟨i1, ?_, ?_, ?_⟩
    · rw [i2, h2, List.append_assoc, List.singleton_append]
    · rw [i3, h3, List.append_assoc, ← List.filter_append, List.singleton_append]
    · rw [i4, h4, List.append_assoc, ← List.filter_append, List.singleton_append]

theorem construct_ok_of_ok (engine : CipherEngine) (parsedFile : ParsedFile)
    (scratch scratch' : ScratchBuffers) (oracle : CheckPassword)
    (h : CheckPassword.construct engine parsedFile scratch = .ok oracle) :
    ∃ oracle', CheckPassword.construct engine parsedFile scratch' = .ok oracle' := by
  unfold CheckPassword.construct at h ⊢
  split at h
  · cases h
  · exact ⟨_, rfl⟩

theorem makeCiphers_spec (engine : CipherEngine) (parsedFile : ParsedFile)
    (fresh : Nat → ScratchBuffers) (scratch : ScratchBuffers) (oracle : CheckPassword)
    (h : CheckPassword.construct engine parsedFile scratch = .ok oracle) (maxThreads : Nat) :
    ∃ ciphers, makeCiphers engine parsedFile fresh maxThreads = .ok ciphers ∧
      ciphers.length = maxThreads ∧ ∀ c ∈ ciphers, sameContext c oracle := by
  induction maxThreads with
  | zero => exact ⟨[], rfl, rfl, fun c hc => absurd hc (List.not_mem_nil c)⟩
  | succ n ih =>
    obtain ⟨ciphers, hm, hlen, hctx⟩ := ih
    obtain ⟨cipher, hc⟩ := construct_ok_of_ok engine parsedFile scratch (fresh n) oracle h
    refine ⟨ciphers ++ [cipher], by simp [makeCiphers, hm, hc], by simp [hlen], ?_⟩
    intro c hmem
    rcases List.mem_append.mp hmem with hmem | hmem
    · exact hctx c hmem
    · rw [List.mem_singleton.mp hmem]
      exact sameContext_construct engine parsedFile (fresh n) scratch cipher oracle hc h

theorem allowedCharsForPasswordRange_eq :
    allowedCharsForPasswordRange =
      "abcdefghijklmnopqrstuvwxyzABCDEFGHIJKLMNOPQRSTUVWXYZ0123456789".toList.map Char.toNat := by
  decide

theorem allowedCharsForPasswordRange_nodup : allowedCharsForPasswordRange.Nodup := by
  decide

/-- C12: for every ciphertext context for which the oracles can be built and
whose checksum field has the length of the SHA-256 digest (`main` reads the
file with a checksum of 32 bytes), and however the tasks are spread over the
threads, the search of `main` ends after
every one of the `62 ^ 3 = 238328` strings of length `3` over the alphabet
`a..z, A..Z, 0..9` has been handed to `isPasswordAcceptable` exactly once.  The
passwords it prints are exactly those strings for which
`isPasswordAcceptable` returns `true` (on an oracle of the context, whatever
that oracle evaluated before); a string whose evaluation throws
`GcryException` gets a warning, is not printed, and the traversal goes on. -/
theorem search_prints_accepted (engine : CipherEngine) (parsedFile : ParsedFile)
    (printDecryptedText : Bool) (maxThreads : Nat) (fresh : Nat → ScratchBuffers)
    (thread : Nat → Nat) (extra : Nat) (scratch : ScratchBuffers) (oracle : CheckPassword)
    (horacle : CheckPassword.construct engine parsedFile scratch = .ok oracle)
    (hthread : ∀ i, thread i < maxThreads)
    (hsize : ∀ text, (engine.sha256 text).length = parsedFile.shaCheckSumSize) :
    ∃ state, search engine parsedFile printDecryptedText maxThreads fresh thread
        (allowedCharsForPasswordRange.length ^ passwordLength + 1 + extra) = .finished state ∧
      allowedCharsForPasswordRange =
        "abcdefghijklmnopqrstuvwxyzABCDEFGHIJKLMNOPQRSTUVWXYZ0123456789".toList.map
          Char.toNat ∧
      state.evaluated.length = 238328 ∧ state.evaluated.Nodup ∧
      (∀ s, s ∈ state.evaluated ↔
        s.length = 3 ∧ ∀ c ∈ s, c ∈ allowedCharsForPasswordRange) ∧
      (state.output.map Report.password).Nodup ∧
      (∀ s, s ∈ state.output.map Report.password ↔
        (s.length = 3 ∧ ∀ c ∈ s, c ∈ allowedCharsForPasswordRange) ∧
          (oracle.isPasswordAcceptable engine s).1 = .ok true) ∧
      (∀ s, s ∈ state.warnings ↔
        (s.length = 3 ∧ ∀ c ∈ s, c ∈ allowedCharsForPasswordRange) ∧
          ∃ e, (oracle.isPasswordAcceptable engine s).1 = .error e) := by
  have hne : allowedCharsForPasswordRange ≠ [] := by decide
  have ha : 0 < allowedCharsForPasswordRange.length := List.length_pos.mpr hne
  have hcount : allowedCharsForPasswordRange.length ^ passwordLength = 238328 := by decide
  obtain ⟨ciphers, hmake, hlen, hctx⟩ :=
    makeCiphers_spec engine parsedFile fresh scratch oracle horacle maxThreads
  have hwalk : walk (allowedCharsForPasswordRange.length ^ passwordLength + 1 + extra)
      (CartesianPowerIterator.ofPower 0 allowedCharsForPasswordRange passwordLength)
      (endState 0 allowedCharsForPasswordRange passwordLength) =
      some ((List.range (allowedCharsForPasswordRange.length ^ passwordLength)).map
        (fun n => (stateOf 0 allowedCharsForPasswordRange passwordLength n).dereference)) :=
    walk_CartesianPower allowedCharsForPasswordRange hne passwordLength (by decide) extra
  have hloop := searchLoop_eq_runTasks engine printDecryptedText thread _ _ _ 0
    { ciphersForMultithread := ciphers, output := [], warnings := [], evaluated := [] } _ hwalk
  have hfield : oracle.sha256CheckSumSize = parsedFile.shaCheckSumSize := by
    unfold CheckPassword.construct at horacle
    split at horacle
    · cases horacle
    · cases horacle
      rfl
  obtain ⟨-, hev, hout, hwarn⟩ := runTasks_spec engine printDecryptedText thread oracle
    maxThreads hthread (fun text => by rw [hfield]; exact hsize text)
    ((List.range (allowedCharsForPasswordRange.length ^ passwordLength)).map
      (fun n => (stateOf 0 allowedCharsForPasswordRange passwordLength n).dereference)) 0
    { ciphersForMultithread := ciphers, output := [], warnings := [], evaluated := [] }
    ⟨hlen, hctx⟩
  simp only [List.nil_append, List.map_nil] at hev hout hwarn
  have hnd := @tuples_nodup Nat 0 _ allowedCharsForPasswordRange
    allowedCharsForPasswordRange_nodup ha passwordLength
  have hmem := @mem_tuples_iff Nat 0 _ allowedCharsForPasswordRange ha passwordLength
  refine ⟨runTasks engine printDecryptedText thread 0
    { ciphersForMultithread := ciphers, output := [], warnings := [], evaluated := [] }
    ((List.range (allowedCharsForPasswordRange.length ^ passwordLength)).map
      (fun n => (stateOf 0 allowedCharsForPasswordRange passwordLength n).dereference)),
    ?_, allowedCharsForPasswordRange_eq, ?_, ?_, ?_, ?_, ?_, ?_⟩
  · simp only [search, hmake, CartesianPowerRange_eq, hloop]
  · rw [hev, List.length_map, List.length_range, hcount]
  · rw [hev]
    exact hnd
  · intro s
    rw [hev]
    exact hmem s
  · rw [hout]
    exact hnd.filter _
  · intro s
    rw [hout, List.mem_filter, hmem s, acceptedBy_iff]
    rfl
  · intro s
    rw [hwarn, List.mem_filter, hmem s, faultedBy_iff]
    rfl

/-- C12, witness: the search for `sampleFile` with `sampleEngine` on two
threads that take the tasks in turn. -/
theorem search_prints_accepted_witness :
    ∃ state, search sampleEngine sampleFile false 2 (fun _ => sampleScratch) (fun i => i % 2)
        (allowedCharsForPasswordRange.length ^ passwordLength + 1 + 0) = .finished state ∧
      allowedCharsForPasswordRange =
        "abcdefghijklmnopqrstuvwxyzABCDEFGHIJKLMNOPQRSTUVWXYZ0123456789".toList.map
          Char.toNat ∧
      state.evaluated.length = 238328 ∧ state.evaluated.Nodup ∧
      (∀ s, s ∈ state.evaluated ↔
        s.length = 3 ∧ ∀ c ∈ s, c ∈ allowedCharsForPasswordRange) ∧
      (state.output.map Report.password).Nodup ∧
      (∀ s, s ∈ state.output.map Report.password ↔
        (s.length = 3 ∧ ∀ c ∈ s, c ∈ allowedCharsForPasswordRange) ∧
          (sampleOracle.isPasswordAcceptable sampleEngine s).1 = .ok true) ∧
      (∀ s, s ∈ state.warnings ↔
        (s.length = 3 ∧ ∀ c ∈ s, c ∈ allowedCharsForPasswordRange) ∧
          ∃ e, (sampleOracle.isPasswordAcceptable sampleEngine s).1 = .error e) :=
  search_prints_accepted sampleEngine sampleFile false 2 (fun _ => sampleScratch)
    (fun i => i % 2) 0 sampleScratch sampleOracle rfl (fun i => Nat.mod_lt i (by decide))
    (fun text => by simp [sampleEngine, sampleFile])
